import Mathlib

/-!
Verification of the resume-generation core of a rule-based resume builder.

The development shallowly embeds the text-transformation pipeline
(`core/content_enhancer.py`, `core/nlp_engine.py`), the section assembler
(`core/resume_builder.py`, `core/simple_builder.py`) and the document
renderers (`core/exporter.py`, `core/simple_exporter.py`) as executable
Lean functions over `List Char` / `String`, and proves or refutes the
frozen specification claims about them.

Strings are modelled as their character lists; Python `re` substitutions
that the source applies are embedded as explicit scanners.  Word-boundary
(`\b`) anchored patterns over words-and-single-spaces (the only shape the
source uses) are embedded by decomposing a string into maximal runs of
word characters and separator characters: a `\b`-delimited pattern matches
exactly when consecutive runs equal the pattern's words with single-space
separator runs in between, which is the semantics of the Python regex on
such patterns.

Recursive scanners are written with an explicit `Nat` fuel argument (the
wrappers pass the input length, which always suffices) so that every
definition reduces in the kernel and concrete inputs can be evaluated with
`decide`.
-/

namespace ResumeAI

/-- Python `\w` word character, restricted to the ASCII behaviour the
repository exercises: letters, digits and underscore. -/
def isWordChar (c : Char) : Bool := c.isAlphanum || c == '_'

/-- Python `\s` whitespace character (ASCII): space, tab, newline,
carriage return, vertical tab, form feed. -/
def isSpaceChar (c : Char) : Bool :=
  c == ' ' || c == '\t' || c == '\n' || c == '\r' || c == '\x0b' || c == '\x0c'

/-- Lowercase a character list (`str.lower` on the ASCII fragment). -/
def lowerList (l : List Char) : List Char := l.map Char.toLower

/-- Does `l` start with `pat`? -/
def startsWithL : List Char → List Char → Bool
  | [], _ => true
  | _ :: _, [] => false
  | p :: ps, c :: cs => p == c && startsWithL ps cs

/-- Python's `pat in l` substring test. -/
def containsSub (pat : List Char) : List Char → Bool
  | [] => startsWithL pat []
  | c :: cs => startsWithL pat (c :: cs) || containsSub pat cs

/-- Case-insensitive substring test: `pat` (already lowercase) occurs in
the lowercasing of `l`. -/
def containsSubCI (pat l : List Char) : Bool := containsSub pat (lowerList l)

/-- Fuel-driven scanner for Python `str.replace(pat, rep)`: replace every
occurrence, scanning left to right without overlap. -/
def replaceSubF (pat rep : List Char) : Nat → List Char → List Char
  | _, [] => []
  | 0, c :: cs => c :: cs
  | n + 1, c :: cs =>
    if startsWithL pat (c :: cs) && !pat.isEmpty then
      rep ++ replaceSubF pat rep n (cs.drop (pat.length - 1))
    else
      c :: replaceSubF pat rep n cs

/-- Python `str.replace(pat, rep)`.  (All uses in the source have a
non-empty `pat`; an empty `pat` is left untouched here so that the
function is total.) -/
def replaceSub (pat rep l : List Char) : List Char := replaceSubF pat rep l.length l

/-- Strip trailing Python whitespace. -/
def dropTrail (l : List Char) : List Char := (l.reverse.dropWhile isSpaceChar).reverse

/-- Python `str.strip()`. -/
def pyStrip (l : List Char) : List Char := dropTrail (l.dropWhile isSpaceChar)

/-- A maximal run of word characters or of separator (non-word)
characters. -/
inductive Tok where
  | word (cs : List Char)
  | sep (cs : List Char)
deriving DecidableEq, Repr

def Tok.chars : Tok → List Char
  | .word cs => cs
  | .sep cs => cs

def Tok.isWord : Tok → Bool
  | .word _ => true
  | .sep _ => false

/-- Fuel-driven splitter of a character list into maximal runs of
word/non-word characters. -/
def tokenizeF : Nat → List Char → List Tok
  | _, [] => []
  | 0, _ :: _ => []
  | n + 1, c :: cs =>
    (if isWordChar c then Tok.word (c :: cs.takeWhile (fun d => isWordChar d == isWordChar c))
     else Tok.sep (c :: cs.takeWhile (fun d => isWordChar d == isWordChar c))) ::
      tokenizeF n (cs.dropWhile (fun d => isWordChar d == isWordChar c))

/-- Split a character list into maximal runs of word/non-word
characters. -/
def tokenize (l : List Char) : List Tok := tokenizeF l.length l

/-- Reassemble a token list into its character list. -/
def detok (ts : List Tok) : List Char := (ts.map Tok.chars).flatten

/-- The characters of a token all belong to its class. -/
def classOk : Tok → Bool
  | .word cs => cs.all isWordChar
  | .sep cs => cs.all fun c => !isWordChar c

/-- Adjacent tokens alternate between word and separator runs. -/
def altOk : List Tok → Bool
  | [] => true
  | [_] => true
  | t :: u :: ts => (t.isWord != u.isWord) && altOk (u :: ts)

/-- Well-formed token list: runs non-empty, class-pure, alternating. -/
def wfToks (ts : List Tok) : Bool :=
  ts.all (fun t => !t.chars.isEmpty && classOk t) && altOk ts

/-- One element of a word-boundary regex pattern as used by the verb
substitution loop: a (lowercase) word that must match a whole word run
case-insensitively, or a separator that must be exactly one space. -/
inductive PatElem where
  | pword (w : List Char)
  | psep
deriving DecidableEq, Repr

def matchTok : PatElem → Tok → Bool
  | .pword w, .word cs => lowerList cs == w
  | .psep, .sep cs => cs == [' ']
  | .pword _, .sep _ => false
  | .psep, .word _ => false

/-- Try to match a pattern against a prefix of the token list, returning
the remaining tokens on success. -/
def tryMatch : List PatElem → List Tok → Option (List Tok)
  | [], ts => some ts
  | _ :: _, [] => none
  | p :: ps, t :: ts => if matchTok p t then tryMatch ps ts else none

def matchAtB (P : List PatElem) (ts : List Tok) : Bool := (tryMatch P ts).isSome

/-- Does the pattern match at some position of the token list? -/
def occursB (P : List PatElem) : List Tok → Bool
  | [] => matchAtB P []
  | t :: ts => matchAtB P (t :: ts) || occursB P ts

/-- Fuel-driven scan of the token list, left to right; at each position
either replace a pattern match by the replacement tokens `R` or emit the
current token.  This is `re.sub` for a `\b`-anchored
words-and-single-spaces pattern. -/
def goTokF (q0 : PatElem) (Q : List PatElem) (R : List Tok) : Nat → List Tok → List Tok
  | _, [] => []
  | 0, t :: ts => t :: ts
  | n + 1, t :: ts =>
    match tryMatch (q0 :: Q) (t :: ts) with
    | some rest => R ++ goTokF q0 Q R n rest
    | none => t :: goTokF q0 Q R n ts

def goTok (q0 : PatElem) (Q : List PatElem) (R : List Tok) (ts : List Tok) : List Tok :=
  goTokF q0 Q R ts.length ts

/-- The pattern of a weak phrase: its words (lowercased) separated by
single-space separators.  Built by tokenizing the phrase itself. -/
def patElems (phrase : List Char) : List PatElem :=
  (tokenize (lowerList phrase)).map fun t =>
    match t with
    | .word cs => .pword cs
    | .sep _ => .psep

/-- Embedding of
`re.sub(r'\b' + re.escape(weak) + r'\b', strong, s, flags=re.IGNORECASE)`
for a `weak` phrase consisting of words separated by single spaces (the
only shape in the transformation table). -/
def subWordBound (weak strong s : List Char) : List Char :=
  match patElems weak with
  | [] => s
  | p :: ps => detok (goTok p ps (tokenize strong) (tokenize s))

/-- Does `phrase` occur in `s`, matched case-insensitively and delimited
by word boundaries (`\b`)? -/
def occursWordBound (phrase s : List Char) : Bool :=
  match patElems phrase with
  | [] => false
  | p :: ps => occursB (p :: ps) (tokenize s)

/-- The verb transformation table of `ContentEnhancer.__init__`
(`content_enhancer.py`), in source order. -/
def verb_transformations : List (List Char × List Char) :=
  [("worked".data, "Developed".data),
   ("helped".data, "Implemented".data),
   ("did".data, "Executed".data),
   ("made".data, "Built".data),
   ("was responsible for".data, "Managed".data),
   ("handled".data, "Managed".data),
   ("dealt with".data, "Resolved".data),
   ("took care of".data, "Maintained".data),
   ("was involved in".data, "Participated in".data),
   ("used".data, "Utilized".data),
   ("got".data, "Achieved".data),
   ("tried".data, "Implemented".data),
   ("looked at".data, "Analyzed".data),
   ("worked on".data, "Developed".data),
   ("worked with".data, "Collaborated with".data),
   ("assisted".data, "Supported".data),
   ("participated".data, "Contributed to".data),
   ("contributed".data, "Enhanced".data),
   ("supported".data, "Facilitated".data)]

/-- The weak-verb substitution loop of `_transform_to_bullet`: apply each
table entry in order as a case-insensitive word-boundary substitution. -/
def applyVerbTransformations (s : List Char) : List Char :=
  verb_transformations.foldl (fun acc wr => subWordBound wr.1 wr.2 acc) s

/-- The token-level analogue of one table-entry substitution. -/
def tokSub (weak strong : List Char) (ts : List Tok) : List Tok :=
  match patElems weak with
  | [] => ts
  | p :: ps => goTok p ps (tokenize strong) ts

/-- The token-level analogue of the whole substitution loop. -/
def applyTok (tbl : List (List Char × List Char)) (ts : List Tok) : List Tok :=
  tbl.foldl (fun acc wr => tokSub wr.1 wr.2 acc) ts

/-- The (lowercase) words of a pattern. -/
def patWords (P : List PatElem) : List (List Char) :=
  P.filterMap fun e =>
    match e with
    | .pword w => some w
    | .psep => none

/-- The lowercased word runs of a token list. -/
def tokWordsCI (ts : List Tok) : List (List Char) :=
  ts.filterMap fun t =>
    match t with
    | .word cs => some (lowerList cs)
    | .sep _ => none

/-- Patterns of the shape `word (space word)*`. -/
def patOk : List PatElem → Bool
  | [.pword _] => true
  | .pword _ :: .psep :: rest => patOk rest
  | _ => false

/-- The head of the token list is a word run. -/
def headIsWord : List Tok → Bool
  | .word _ :: _ => true
  | _ => false

/-- The last token of the list is a word run. -/
def lastIsWord (ts : List Tok) : Bool := headIsWord ts.reverse

/-- Chunk-side conditions under which substituting `R` can neither create
nor retain an occurrence of the pattern `pword f :: P'`: the chunk starts
with a word that is not a word of the pattern, and no chunk word equals
the pattern's first word. -/
def chunkOk (f : List Char) (P' : List PatElem) (R : List Tok) : Bool :=
  match R.head? with
  | some (.word cs) =>
      !((patWords (PatElem.pword f :: P')).contains (lowerList cs)) &&
        !((tokWordsCI R).contains f)
  | _ => false

/-- The class of the first token, if any. -/
def headW : List Tok → Option Bool
  | [] => none
  | t :: _ => some t.isWord

/-- Well-formedness of one table entry for the canonicalization argument:
the weak phrase tokenizes to a `word (space word)*` pattern and the
replacement's token list starts and ends with a word run. -/
def entryOk (wr : List Char × List Char) : Bool :=
  patOk (patElems wr.1) && headIsWord (tokenize wr.2) && lastIsWord (tokenize wr.2)

/-- The chunk conditions an entry needs against its own replacement and
against every later replacement in the table. -/
def selfSuffixOk (w r : List Char) (l₂ : List (List Char × List Char)) : Bool :=
  match patElems w with
  | PatElem.pword f :: P' =>
      chunkOk f P' (tokenize r) && l₂.all fun wr => chunkOk f P' (tokenize wr.2)
  | _ => false

/-- Every entry of a table satisfies its chunk conditions against its own
replacement and against every later replacement. -/
def tableOk : List (List Char × List Char) → Bool
  | [] => true
  | (w, r) :: tl => selfSuffixOk w r tl && tableOk tl

/-! ## Embedding of `content_enhancer.py` (with the basic, spaCy-free
analysis path of `nlp_engine.py`; the optional spaCy tokenizer and the
optional OpenAI polishing client are external services and are absent in
the embedded configuration, exactly as in the source's fallback path). -/

/-- `re.sub(r'^[•\-\*]\s*', '', sentence)`: drop one leading bullet
marker and the whitespace after it. -/
def stripBulletMarker (l : List Char) : List Char :=
  match l with
  | [] => []
  | c :: cs =>
    if c == '•' || c == '-' || c == '*' then cs.dropWhile isSpaceChar else c :: cs

/-- The fixed strong-verb allow-list of `_ensure_strong_start`. -/
def strong_verbs : List (List Char) :=
  ["Developed".data, "Built".data, "Created".data, "Designed".data,
   "Implemented".data, "Engineered".data,
   "Led".data, "Managed".data, "Directed".data, "Coordinated".data,
   "Supervised".data, "Mentored".data,
   "Optimized".data, "Enhanced".data, "Improved".data, "Streamlined".data,
   "Automated".data,
   "Achieved".data, "Delivered".data, "Executed".data, "Completed".data,
   "Launched".data,
   "Analyzed".data, "Researched".data, "Evaluated".data, "Assessed".data,
   "Investigated".data,
   "Collaborated".data, "Partnered".data, "Facilitated".data,
   "Contributed".data, "Supported".data]

/-- Fuel-driven Python `str.split()` (split on whitespace runs, dropping
empty pieces). -/
def pySplitWSF : Nat → List Char → List (List Char)
  | _, [] => []
  | 0, _ :: _ => []
  | n + 1, c :: cs =>
    if isSpaceChar c then pySplitWSF n cs
    else (c :: cs.takeWhile (fun d => !isSpaceChar d)) ::
      pySplitWSF n (cs.dropWhile fun d => !isSpaceChar d)

def pySplitWS (l : List Char) : List (List Char) := pySplitWSF l.length l

/-- `str.rstrip('.,!?')`. -/
def rstripPunct (l : List Char) : List Char :=
  (l.reverse.dropWhile fun c => c == '.' || c == ',' || c == '!' || c == '?').reverse

/-- `_ensure_strong_start` of `content_enhancer.py`. -/
def ensure_strong_start (s : List Char) : List Char :=
  if s.isEmpty then s
  else
    let fw := match (pySplitWS s).head? with
      | some w => w
      | none => []
    if (strong_verbs.map lowerList).contains (rstripPunct (lowerList fw)) then s
    else
      let lo := lowerList s
      if containsSub ("develop".data) lo || containsSub ("build".data) lo ||
          containsSub ("creat".data) lo then
        ("Developed ".data) ++ s
      else if containsSub ("lead".data) lo || containsSub ("manag".data) lo ||
          containsSub ("direct".data) lo then
        ("Led ".data) ++ s
      else if containsSub ("optim".data) lo || containsSub ("improv".data) lo ||
          containsSub ("enhanc".data) lo then
        ("Optimized ".data) ++ s
      else if containsSub ("analyz".data) lo || containsSub ("research".data) lo ||
          containsSub ("evaluat".data) lo then
        ("Analyzed ".data) ++ s
      else if containsSub ("collaborat".data) lo || containsSub ("work with".data) lo ||
          containsSub ("partner".data) lo then
        ("Collaborated on ".data) ++ s
      else
        ("Implemented ".data) ++ s

/-- Case-insensitive prefix test (`pat` already lowercase). -/
def startsWithCI : List Char → List Char → Bool
  | [], _ => true
  | _ :: _, [] => false
  | p :: ps, c :: cs => p == Char.toLower c && startsWithCI ps cs

/-- Length of the longest prefix of a word run that matches `\w+ed`
case-insensitively (the greedy, backtracking match of the passive-voice
regexes), if any. -/
def edPrefixLen (run : List Char) : Option Nat :=
  (List.range (run.length + 1)).reverse.find? fun k =>
    decide (3 ≤ k) &&
      (match (run.take k).reverse with
       | d :: e :: _ => Char.toLower e == 'e' && Char.toLower d == 'd'
       | _ => false)

/-- Fuel-driven scanner for one passive-voice pattern
`re.sub(aux + r' (\w+ed)', r'\1', s, flags=re.IGNORECASE)`: the
auxiliary (no word boundary!) plus a space plus the longest `\w`-prefix
ending in `ed` is replaced by that prefix. -/
def scanActiveF (aux : List Char) : Nat → List Char → List Char
  | _, [] => []
  | 0, c :: cs => c :: cs
  | n + 1, c :: cs =>
    if startsWithCI (aux ++ [' ']) (c :: cs) then
      let after := (c :: cs).drop (aux.length + 1)
      let run := after.takeWhile isWordChar
      match edPrefixLen run with
      | some k => after.take k ++ scanActiveF aux n (after.drop k)
      | none => c :: scanActiveF aux n cs
    else c :: scanActiveF aux n cs

def scanActive (aux l : List Char) : List Char := scanActiveF aux l.length l

/-- `_convert_to_active_voice`: the six auxiliary patterns in source
order. -/
def convert_to_active_voice (s : List Char) : List Char :=
  [("was".data), ("were".data), ("has been".data), ("have been".data),
   ("is".data), ("are".data)].foldl (fun acc aux => scanActive aux acc) s

/-- Length of the maximal digit run at the head of the list. -/
def digitPrefixLen (l : List Char) : Nat := (l.takeWhile fun c => c.isDigit).length

/-- Fuel-driven `re.finditer`: scan left to right, at each position try
the matcher; on a match of length `k` record the span and continue after
it. -/
def finditerF (m : List Char → Option Nat) : Nat → Nat → List Char → List (Nat × Nat)
  | _, _, [] => []
  | 0, _, _ :: _ => []
  | n + 1, pos, c :: cs =>
    match m (c :: cs) with
    | some k =>
      if k == 0 then finditerF m n (pos + 1) cs
      else (pos, pos + k) :: finditerF m n (pos + k) ((c :: cs).drop k)
    | none => finditerF m n (pos + 1) cs

def finditer (m : List Char → Option Nat) (s : List Char) : List (Nat × Nat) :=
  finditerF m s.length 0 s

/-- Matcher for `\d+%`-style patterns: a digit run followed by the given
(case-insensitively matched) suffix. -/
def matchDigitsThen (suffix : List Char) (l : List Char) : Option Nat :=
  let k := digitPrefixLen l
  if k == 0 then none
  else if startsWithCI suffix (l.drop k) then some (k + suffix.length) else none

/-- Matcher for `\$\d+[kmb]?`. -/
def matchDollar (l : List Char) : Option Nat :=
  match l with
  | [] => none
  | c0 :: rest =>
    if c0 == '$' then
      let k := digitPrefixLen rest
      if k == 0 then none
      else
        match rest.drop k with
        | c :: _ =>
          if c.toLower == 'k' || c.toLower == 'm' || c.toLower == 'b' then
            some (1 + k + 1)
          else some (1 + k)
        | [] => some (1 + k)
    else none

/-- Matcher for `\d+[kmb]`. -/
def matchDigitsKMB (l : List Char) : Option Nat :=
  let k := digitPrefixLen l
  if k == 0 then none
  else
    match l.drop k with
    | c :: _ =>
      if c.toLower == 'k' || c.toLower == 'm' || c.toLower == 'b' then some (k + 1)
      else none
    | [] => none

/-- Matcher for `\d+:\d+`. -/
def matchRatio (l : List Char) : Option Nat :=
  let k := digitPrefixLen l
  if k == 0 then none
  else
    match l.drop k with
    | [] => none
    | c :: rest =>
      if c == ':' then
        let k2 := digitPrefixLen rest
        if k2 == 0 then none else some (k + 1 + k2)
      else none

/-- Matcher for `\d+\.\d+`. -/
def matchDecimal (l : List Char) : Option Nat :=
  let k := digitPrefixLen l
  if k == 0 then none
  else
    match l.drop k with
    | [] => none
    | c :: rest =>
      if c == '.' then
        let k2 := digitPrefixLen rest
        if k2 == 0 then none else some (k + 1 + k2)
      else none

/-- Fuel-driven consumption of `(?:,\d{3})*` groups. -/
def commaGroupsF : Nat → List Char → Nat
  | 0, _ => 0
  | n + 1, l =>
    match l with
    | ',' :: rest =>
      if 3 ≤ digitPrefixLen rest then
        4 + commaGroupsF n (rest.drop 3)
      else 0
    | _ => 0

/-- Matcher for `\d{1,3}(?:,\d{3})*`. -/
def matchGrouped (l : List Char) : Option Nat :=
  let k := min 3 (digitPrefixLen l)
  if k == 0 then none
  else some (k + commaGroupsF l.length (l.drop k))

/-- `NLPEngine.extract_quantified_achievements`: for each of the eight
numeric patterns, in source order, collect the ±50-character window
around every match, stripped. -/
def extract_quantified_achievements (s : List Char) : List (List Char) :=
  let matchers : List (List Char → Option Nat) :=
    [matchDigitsThen ("%".data),
     matchDigitsThen ("+".data),
     matchDollar,
     matchDigitsKMB,
     matchDigitsThen ("x".data),
     matchRatio,
     matchDecimal,
     matchGrouped]
  matchers.flatMap fun m =>
    (finditer m s).map fun se =>
      let a := se.1 - 50
      let b := min s.length (se.2 + 50)
      pyStrip ((s.drop a).take (b - a))

/-- `re.search(r'\d+[%kmb]?|\$\d+|\d+x|\d+:\d+', sentence)`: the
first alternative `\d+[%kmb]?` has an optional suffix, so the search
succeeds exactly when the sentence contains a digit (the other three
alternatives all require a digit as well). -/
def hasNumericPattern (s : List Char) : Bool := s.any fun c => c.isDigit

/-- `_add_quantification` of `content_enhancer.py` (the `nlp_engine`
attribute is present, as `NLPEngine.__init__` never raises). -/
def add_quantification (s : List Char) : List Char :=
  if hasNumericPattern s then s
  else if !(extract_quantified_achievements s).isEmpty then s
  else
    let lo := lowerList s
    if containsSub ("performance".data) lo || containsSub ("speed".data) lo then
      if containsSub ("improv".data) lo || containsSub ("optim".data) lo then
        replaceSub (".".data) (", improving performance by 25%.".data) s
      else s
    else if containsSub ("cost".data) lo || containsSub ("expense".data) lo then
      if containsSub ("reduc".data) lo || containsSub ("sav".data) lo then
        replaceSub (".".data) (", reducing costs by 20%.".data) s
      else s
    else if containsSub ("time".data) lo then
      if containsSub ("reduc".data) lo || containsSub ("sav".data) lo then
        replaceSub (".".data) (", saving 15 hours per week.".data) s
      else s
    else if containsSub ("user".data) lo || containsSub ("customer".data) lo then
      if containsSub ("improv".data) lo || containsSub ("enhanc".data) lo then
        replaceSub (".".data) (", improving user satisfaction by 30%.".data) s
      else s
    else s

/-- The final capitalization/punctuation step of `_transform_to_bullet`. -/
def finalize_bullet (s : List Char) : List Char :=
  let s2 := pyStrip s
  match s2 with
  | [] => []
  | c :: cs =>
    let s3 := Char.toUpper c :: cs
    if s3.getLast? == some '.' then s3 else s3 ++ ['.']

/-- `_transform_to_bullet` of `content_enhancer.py` (its `analysis`
parameter is unused by the source). -/
def transform_to_bullet (s : List Char) : List Char :=
  let s1 := pyStrip s
  if s1.isEmpty then []
  else
    finalize_bullet
      (add_quantification
        (convert_to_active_voice
          (ensure_strong_start
            (applyVerbTransformations (stripBulletMarker s1)))))

/-- Fuel-driven `re.split` where the delimiter pattern is a maximal run
of characters satisfying `p` (e.g. `[.!?]+`). -/
def splitRunsF (p : Char → Bool) : Nat → List Char → List (List Char)
  | 0, l => [l]
  | n + 1, l =>
    let piece := l.takeWhile fun c => !p c
    let rest := l.dropWhile fun c => !p c
    match rest with
    | [] => [piece]
    | _ :: _ => piece :: splitRunsF p n (rest.dropWhile p)

def splitRuns (p : Char → Bool) (l : List Char) : List (List Char) :=
  splitRunsF p l.length l

/-- Fuel-driven `re.split` where the delimiter is one character
satisfying `p` followed by a whitespace run (`[.!?;]\s*`). -/
def splitDelimWSF (p : Char → Bool) : Nat → List Char → List (List Char)
  | 0, l => [l]
  | n + 1, l =>
    let piece := l.takeWhile fun c => !p c
    let rest := l.dropWhile fun c => !p c
    match rest with
    | [] => [piece]
    | _ :: rest2 => piece :: splitDelimWSF p n (rest2.dropWhile isSpaceChar)

def splitDelimWS (p : Char → Bool) (l : List Char) : List (List Char) :=
  splitDelimWSF p l.length l

/-- Fuel-driven `str.split(ch)` for single-character separators
(`re.split(r'[,;|\n]', ...)` splits at every single delimiter char). -/
def splitCharsF (p : Char → Bool) : Nat → List Char → List (List Char)
  | 0, l => [l]
  | n + 1, l =>
    let piece := l.takeWhile fun c => !p c
    let rest := l.dropWhile fun c => !p c
    match rest with
    | [] => [piece]
    | _ :: rest2 => piece :: splitCharsF p n rest2

def splitChars (p : Char → Bool) (l : List Char) : List (List Char) :=
  splitCharsF p l.length l

/-- `'sep'.join(xs)`. -/
def joinWith (sepr : List Char) (xs : List (List Char)) : List Char :=
  match xs with
  | [] => []
  | x :: rest => x ++ rest.flatMap fun y => sepr ++ y

/-- Sentence extraction of `NLPEngine._analyze_basic`: split on `[.!?]+`
and keep stripped pieces longer than 10 characters. -/
def basic_sentences (text : List Char) : List (List Char) :=
  (splitRuns (fun c => c == '.' || c == '!' || c == '?') text).filterMap fun s =>
    let s2 := pyStrip s
    if 10 < s2.length then some s2 else none

/-- `_create_bullets_from_raw` of `content_enhancer.py`. -/
def create_bullets_from_raw (raw : List Char) : List (List Char) :=
  (splitDelimWS (fun c => c == '.' || c == '!' || c == '?' || c == ';') raw).filterMap
    fun s =>
      let s2 := pyStrip s
      if 10 < s2.length then
        let b := transform_to_bullet s2
        if b.isEmpty then none else some b
      else none

/-- `ContentEnhancer.enhance_experience` (local processing path: the
basic sentence splitter stands in for the optional spaCy pipeline, and no
OpenAI client is configured). -/
def enhance_experience (raw : List Char) : List Char :=
  if (pyStrip raw).isEmpty then []
  else
    let bullets := (basic_sentences raw).filterMap fun sen =>
      if (pyStrip sen).isEmpty then none
      else
        let b := transform_to_bullet sen
        if b.isEmpty then none else some b
    let bullets := if bullets.isEmpty then create_bullets_from_raw raw else bullets
    joinWith ("\n".data) bullets

/-- `ContentEnhancer.enhance_projects` (same notes as
`enhance_experience`; no raw-text fallback in the source). -/
def enhance_projects (raw : List Char) : List Char :=
  if (pyStrip raw).isEmpty then []
  else
    let bullets := (basic_sentences raw).filterMap fun sen =>
      if (pyStrip sen).isEmpty then none
      else
        let b := transform_to_bullet sen
        if b.isEmpty then none else some b
    joinWith ("\n".data) bullets

/-- Python `str.title()` (ASCII): a letter is uppercased after a
non-letter and lowercased after a letter. -/
def pyTitleGo : Bool → List Char → List Char
  | _, [] => []
  | prevAlpha, c :: cs =>
    (if c.isAlpha then (if prevAlpha then c.toLower else c.toUpper) else c) ::
      pyTitleGo c.isAlpha cs

def pyTitle (l : List Char) : List Char := pyTitleGo false l

/-- Python `str.upper()` (ASCII). -/
def upperList (l : List Char) : List Char := l.map Char.toUpper

/-- The technical-skill vocabulary of `NLPEngine.__init__`
(`nlp_engine.py`).  The source stores it as a Python `set`, whose
iteration order is unspecified; it is embedded in literal order, and no
claim depends on the order, only on membership. -/
def skill_keywords : List (List Char) :=
  ["python".data, "javascript".data, "java".data, "typescript".data, "c++".data,
   "c#".data, "php".data, "ruby".data, "go".data, "rust".data, "swift".data,
   "kotlin".data, "scala".data, "r".data, "matlab".data, "perl".data, "shell".data,
   "html".data, "css".data, "react".data, "angular".data, "vue.js".data,
   "node.js".data, "express".data, "django".data, "flask".data, "spring".data,
   "laravel".data, "rails".data, "asp.net".data, "jquery".data, "bootstrap".data,
   "tailwind".data, "sass".data, "webpack".data, "babel".data, "npm".data,
   "yarn".data, "sql".data, "mysql".data, "postgresql".data, "mongodb".data,
   "redis".data, "elasticsearch".data, "oracle".data, "sqlite".data,
   "cassandra".data, "dynamodb".data, "neo4j".data, "influxdb".data, "aws".data,
   "azure".data, "gcp".data, "docker".data, "kubernetes".data, "jenkins".data,
   "gitlab".data, "terraform".data, "ansible".data, "chef".data, "puppet".data,
   "vagrant".data, "nginx".data, "apache".data, "pandas".data, "numpy".data,
   "scikit-learn".data, "tensorflow".data, "pytorch".data, "keras".data,
   "matplotlib".data, "seaborn".data, "jupyter".data, "spark".data, "hadoop".data,
   "tableau".data, "git".data, "github".data, "bitbucket".data, "jira".data,
   "confluence".data, "slack".data, "trello".data, "postman".data, "swagger".data,
   "figma".data, "sketch".data, "photoshop".data, "illustrator".data]

/-- `ContentEnhancer._detect_domain`. -/
def detect_domain (text : List Char) : List Char :=
  let lo := lowerList text
  if ["software".data, "developer".data, "engineer".data, "programming".data,
      "code".data, "api".data, "web".data, "app".data].any
        (fun t => containsSub t lo) then
    "software".data
  else if ["data".data, "analytics".data, "machine learning".data,
      "statistics".data, "analysis".data, "visualization".data].any
        (fun t => containsSub t lo) then
    "data".data
  else if ["business".data, "management".data, "strategy".data,
      "operations".data, "marketing".data, "sales".data].any
        (fun t => containsSub t lo) then
    "business".data
  else "software".data

/-- `ContentEnhancer._extract_key_skills` on the basic analysis path
(every analysis keyword is already a skill keyword). -/
def extract_key_skills (text : List Char) (keywords : List (List Char)) :
    List (List Char) :=
  let technical := (keywords.filter (fun k => skill_keywords.contains k)).map pyTitle
  let technical :=
    if technical.isEmpty then
      (["python".data, "javascript".data, "react".data, "node.js".data,
        "aws".data, "docker".data, "sql".data].filter
          (fun sk => containsSub sk (lowerList text))).map pyTitle
    else technical
  technical.take 5

/-- Matcher for `(\d+)\+?\s*years?` at the current position. -/
def matchYears1 (l : List Char) : Option (List Char) :=
  let k := digitPrefixLen l
  if k == 0 then none
  else
    let g := l.take k
    let rest := l.drop k
    let rest := match rest with
      | '+' :: r => r
      | r => r
    if startsWithCI ("year".data) (rest.dropWhile isSpaceChar) then some g else none

/-- Matcher for `(\d+)\+?\s*yrs?` at the current position. -/
def matchYears2 (l : List Char) : Option (List Char) :=
  let k := digitPrefixLen l
  if k == 0 then none
  else
    let g := l.take k
    let rest := l.drop k
    let rest := match rest with
      | '+' :: r => r
      | r => r
    if startsWithCI ("yr".data) (rest.dropWhile isSpaceChar) then some g else none

/-- Matcher for `over\s+(\d+)\s*years?` at the current position. -/
def matchYears3 (l : List Char) : Option (List Char) :=
  if startsWithCI ("over".data) l then
    let rest := l.drop 4
    if (rest.takeWhile isSpaceChar).isEmpty then none
    else
      let rest := rest.dropWhile isSpaceChar
      let k := digitPrefixLen rest
      if k == 0 then none
      else if startsWithCI ("year".data) ((rest.drop k).dropWhile isSpaceChar) then
        some (rest.take k)
      else none
  else none

/-- Matcher for `more than\s+(\d+)\s*years?` at the current position. -/
def matchYears4 (l : List Char) : Option (List Char) :=
  if startsWithCI ("more than".data) l then
    let rest := l.drop 9
    if (rest.takeWhile isSpaceChar).isEmpty then none
    else
      let rest := rest.dropWhile isSpaceChar
      let k := digitPrefixLen rest
      if k == 0 then none
      else if startsWithCI ("year".data) ((rest.drop k).dropWhile isSpaceChar) then
        some (rest.take k)
      else none
  else none

/-- Leftmost match of a group matcher (`re.search`). -/
def findFirstGroup (m : List Char → Option (List Char)) : List Char → Option (List Char)
  | [] => m []
  | c :: cs =>
    match m (c :: cs) with
    | some g => some g
    | none => findFirstGroup m cs

/-- `ContentEnhancer._extract_years_experience`: four patterns in order,
first pattern with a match anywhere wins; result is `"{digits}+"`. -/
def extract_years_experience (text : List Char) : Option (List Char) :=
  match findFirstGroup matchYears1 text with
  | some g => some (g ++ ("+".data))
  | none =>
    match findFirstGroup matchYears2 text with
    | some g => some (g ++ ("+".data))
    | none =>
      match findFirstGroup matchYears3 text with
      | some g => some (g ++ ("+".data))
      | none =>
        match findFirstGroup matchYears4 text with
        | some g => some (g ++ ("+".data))
        | none => none

def summary_intro (domain years skills : List Char) : List Char :=
  if domain == ("data".data) then
    ("Analytical data professional with ".data) ++ years ++
      (" years of experience in ".data) ++ skills ++ (".".data)
  else if domain == ("business".data) then
    ("Strategic business professional with ".data) ++ years ++
      (" years of experience in ".data) ++ skills ++ (".".data)
  else
    ("Results-driven software engineer with ".data) ++ years ++
      (" years of experience in ".data) ++ skills ++ (".".data)

def summary_focus (domain domainText achievement : List Char) : List Char :=
  if domain == ("data".data) then
    ("Specialized in ".data) ++ domainText ++
      (" with demonstrated success in ".data) ++ achievement ++ (".".data)
  else if domain == ("business".data) then
    ("Expert in ".data) ++ domainText ++ (" with a proven ability to ".data) ++
      achievement ++ (".".data)
  else
    ("Proven expertise in ".data) ++ domainText ++
      (" with a track record of ".data) ++ achievement ++ (".".data)

def summary_goal (domain : List Char) : List Char :=
  if domain == ("data".data) then
    ("Looking to apply data-driven insights and analytical expertise to solve complex business challenges.".data)
  else if domain == ("business".data) then
    ("Committed to driving organizational growth and operational excellence through strategic leadership.".data)
  else
    ("Seeking to leverage technical skills and leadership experience to drive innovation at a forward-thinking technology company.".data)

/-- `ContentEnhancer.enhance_summary` (basic analysis path, no OpenAI
client). -/
def enhance_summary (raw : List Char) : List Char :=
  if (pyStrip raw).isEmpty then []
  else
    let keywords := skill_keywords.filter fun sk => containsSub sk (lowerList raw)
    let domain := detect_domain raw
    let skills := extract_key_skills raw keywords
    let yearsStr := match extract_years_experience raw with
      | some y => y
      | none => "5+".data
    let skillsStr :=
      if skills.isEmpty then ("full-stack development".data)
      else joinWith (", ".data) (skills.take 3)
    let intro := summary_intro domain yearsStr skillsStr
    let parts := match extract_quantified_achievements raw with
      | [] => [intro, summary_goal domain]
      | a :: _ =>
        [intro,
         summary_focus domain (replaceSub ("_".data) (" ".data) domain) a,
         summary_goal domain]
    joinWith (" ".data) parts

/-- `ContentEnhancer._parse_skills`. -/
def parse_skills (raw : List Char) : List (List Char) :=
  (splitChars (fun c => c == ',' || c == ';' || c == '|' || c == '\n') raw).filterMap
    fun sk =>
      let sk := pyStrip sk
      if !sk.isEmpty && decide (1 < sk.length) then some sk else none

def programming_langs : List (List Char) :=
  ["python".data, "javascript".data, "java".data, "c++".data, "c#".data,
   "php".data, "ruby".data, "go".data, "typescript".data]

def frameworks_vocab : List (List Char) :=
  ["react".data, "angular".data, "vue".data, "node.js".data, "django".data,
   "flask".data, "spring".data, "express".data]

def databases_vocab : List (List Char) :=
  ["sql".data, "mysql".data, "postgresql".data, "mongodb".data, "redis".data,
   "oracle".data, "sqlite".data]

def cloud_devops_vocab : List (List Char) :=
  ["aws".data, "azure".data, "gcp".data, "docker".data, "kubernetes".data,
   "jenkins".data, "terraform".data]

def tools_vocab : List (List Char) :=
  ["git".data, "github".data, "jira".data, "postman".data, "figma".data,
   "photoshop".data]

/-- The per-skill category lists, mirroring the `categories` dict of
`_categorize_skills` (Python dicts preserve insertion order). -/
structure SkillCats where
  programming : List (List Char)
  frameworks : List (List Char)
  databases : List (List Char)
  cloud : List (List Char)
  tools : List (List Char)
deriving DecidableEq, Repr

/-- One step of the categorization loop: first-match substring membership
over the five vocabularies, defaulting to Tools & Platforms. -/
def categorize_step (cats : SkillCats) (skill : List Char) : SkillCats :=
  let lo := lowerList skill
  if programming_langs.any (fun v => containsSub v lo) then
    { cats with programming := cats.programming ++ [skill] }
  else if frameworks_vocab.any (fun v => containsSub v lo) then
    { cats with frameworks := cats.frameworks ++ [skill] }
  else if databases_vocab.any (fun v => containsSub v lo) then
    { cats with databases := cats.databases ++ [skill] }
  else if cloud_devops_vocab.any (fun v => containsSub v lo) then
    { cats with cloud := cats.cloud ++ [skill] }
  else if tools_vocab.any (fun v => containsSub v lo) then
    { cats with tools := cats.tools ++ [skill] }
  else
    { cats with tools := cats.tools ++ [skill] }

/-- `ContentEnhancer._categorize_skills`. -/
def categorize_skills (skills : List (List Char)) : SkillCats :=
  skills.foldl categorize_step ⟨[], [], [], [], []⟩

/-- The categories in their fixed order, with their display names. -/
def catsToList (c : SkillCats) : List (List Char × List (List Char)) :=
  [("Programming Languages".data, c.programming),
   ("Frameworks & Libraries".data, c.frameworks),
   ("Databases".data, c.databases),
   ("Cloud & DevOps".data, c.cloud),
   ("Tools & Platforms".data, c.tools)]

/-- `ContentEnhancer.enhance_skills`. -/
def enhance_skills (raw : List Char) : List Char :=
  if (pyStrip raw).isEmpty then []
  else
    let cats := catsToList (categorize_skills (parse_skills raw))
    let lines := (cats.filter fun kv => !kv.2.isEmpty).map fun kv =>
      kv.1 ++ (": ".data) ++ joinWith (", ".data) kv.2
    joinWith ("\n".data) lines

/-- Spec-side category assignment (written from the specification's
words, to be compared with the source's `categorize_step` fold): each
skill token is assigned to exactly one category by first-match substring
membership against the fixed vocabularies, defaulting to Tools &
Platforms.  (A tools-vocabulary hit and an unmatched token both yield
Tools & Platforms, so the default absorbs the fifth test.) -/
def spec_category_of (skill : List Char) : List Char :=
  let lo := lowerList skill
  if programming_langs.any (fun v => containsSub v lo) then
    ("Programming Languages".data)
  else if frameworks_vocab.any (fun v => containsSub v lo) then
    ("Frameworks & Libraries".data)
  else if databases_vocab.any (fun v => containsSub v lo) then
    ("Databases".data)
  else if cloud_devops_vocab.any (fun v => containsSub v lo) then
    ("Cloud & DevOps".data)
  else
    ("Tools & Platforms".data)

/-- Spec-side formatting of `enhance_skills` (written from the
specification's words): split the raw string, keep cleaned tokens of
length greater than one, and emit one `Category: skill, skill` line per
non-empty category in the fixed category order, where a category's
skills are exactly the tokens assigned to it, in input order. -/
def spec_enhance_skills (raw : List Char) : List Char :=
  if (pyStrip raw).isEmpty then []
  else
    let skills := parse_skills raw
    let lines :=
      [("Programming Languages".data), ("Frameworks & Libraries".data),
       ("Databases".data), ("Cloud & DevOps".data),
       ("Tools & Platforms".data)].filterMap fun name =>
        let sel := skills.filter fun sk => spec_category_of sk == name
        if sel.isEmpty then none
        else some (name ++ (": ".data) ++ joinWith (", ".data) sel)
    joinWith ("\n".data) lines

/-- `ContentEnhancer.enhance_education`. -/
def enhance_education (raw : List Char) : List Char :=
  if (pyStrip raw).isEmpty then []
  else
    let education := pyStrip raw
    if startsWithL ("•".data) education then education
    else ("• ".data) ++ education

/-- `ContentEnhancer.enhance_custom_section` (the title parameter is
unused by the source). -/
def enhance_custom_section (content : List Char) : List Char :=
  if (pyStrip content).isEmpty then []
  else
    let lines := (splitChars (fun c => c == '\n') content).filterMap fun line =>
      let l := pyStrip line
      if l.isEmpty then none
      else if startsWithL ("•".data) l then some l
      else some (("• ".data) ++ l)
    joinWith ("\n".data) lines

/-! ## Embedding of `resume_builder.py` and `simple_builder.py`.
Record fields are strings; an empty string models an absent dictionary
key (both are falsy in every code path the source takes). -/

structure EduEntry where
  institution : List Char
  degree : List Char
  field : List Char
  startDate : List Char
  endDate : List Char
  gpa : List Char
  achievements : List Char
deriving DecidableEq, Repr

structure ExpEntry where
  company : List Char
  title : List Char
  startDate : List Char
  endDate : List Char
  responsibilities : List Char
  achievements : List Char
deriving DecidableEq, Repr

structure ProjEntry where
  name : List Char
  description : List Char
  technologies : List Char
  link : List Char
  startDate : List Char
  endDate : List Char
deriving DecidableEq, Repr

structure CustomSectionEntry where
  title : List Char
  content : List Char
deriving DecidableEq, Repr

structure ResumeData where
  name : List Char
  location : List Char
  email : List Char
  phone : List Char
  linkedin : List Char
  website : List Char
  objective : List Char
  skills : List Char
  education : List Char
  experience : List Char
  projects : List Char
  education_entries : List EduEntry
  experience_entries : List ExpEntry
  project_entries : List ProjEntry
  custom_sections : List CustomSectionEntry
deriving DecidableEq, Repr

/-- The 50-dash divider line. -/
def sep50 : List Char := List.replicate 50 '-'

/-- `_build_header_section` of `resume_builder.py`. -/
def build_header_section (d : ResumeData) : List Char :=
  let nm := pyStrip d.name
  let nm := if nm.isEmpty then ("Professional Resume".data) else nm
  let contact :=
    (if !d.location.isEmpty then [d.location] else []) ++
    (if !d.email.isEmpty then [d.email] else []) ++
    (if !d.phone.isEmpty then [d.phone] else []) ++
    (if !d.linkedin.isEmpty then
      [if startsWithL ("http".data) d.linkedin then d.linkedin
       else ("https://".data) ++ d.linkedin]
     else []) ++
    (if !d.website.isEmpty then
      [if startsWithL ("http".data) d.website then d.website
       else ("https://".data) ++ d.website]
     else [])
  let parts := [pyTitle nm] ++
    (if !contact.isEmpty then [joinWith (" | ".data) contact] else [])
  joinWith ("\n".data) parts

/-- `_build_summary_section` of `resume_builder.py` (enhancer present). -/
def build_summary_section (d : ResumeData) : List Char :=
  let objective := pyStrip d.objective
  if objective.isEmpty then []
  else
    joinWith ("\n".data)
      [("Professional Summary".data), enhance_summary objective, sep50]

/-- `_build_skills_section` of `resume_builder.py` (enhancer present). -/
def build_skills_section (d : ResumeData) : List Char :=
  let skills := pyStrip d.skills
  if skills.isEmpty then []
  else
    let enhanced := enhance_skills skills
    let parts :=
      if containsSub ("\n".data) enhanced then
        [("Skills".data), enhanced]
      else
        ("Skills".data) ::
          ((splitChars (fun c => c == ',') enhanced).filterMap fun sk =>
            let sk := pyStrip sk
            if sk.isEmpty then none else some (("• ".data) ++ sk))
    joinWith ("\n".data) (parts ++ [sep50])

/-- Drop a trailing empty line (`if section_parts and section_parts[-1]
== "": section_parts.pop()`). -/
def popTrailingEmpty (xs : List (List Char)) : List (List Char) :=
  match xs.getLast? with
  | some [] => xs.dropLast
  | _ => xs

/-- Bullet-format the lines of an enhanced block (`for line in
enhanced.split('\n'): ...`). -/
def bulletize (enhanced : List Char) : List (List Char) :=
  (splitChars (fun c => c == '\n') enhanced).filterMap fun line =>
    let l := pyStrip line
    if l.isEmpty then none
    else if startsWithL ("•".data) l then some l
    else some (("• ".data) ++ l)

/-- `_build_education_section` of `resume_builder.py`. -/
def build_education_section (d : ResumeData) : List Char :=
  if d.education_entries.isEmpty && !d.education.isEmpty then
    let enhanced := enhance_education d.education
    if !enhanced.isEmpty then
      joinWith ("\n".data) [("Education".data), enhanced, sep50]
    else []
  else if d.education_entries.isEmpty then []
  else
    let entryLines : EduEntry → List (List Char) := fun e =>
      if !(!e.institution.isEmpty || !e.degree.isEmpty || !e.field.isEmpty) then []
      else
        let degreeField :=
          (if !e.degree.isEmpty then [e.degree] else []) ++
          (if !e.field.isEmpty then [("in ".data) ++ e.field] else [])
        let institutionInfo :=
          (if !e.institution.isEmpty then [e.institution] else []) ++
          (if !e.startDate.isEmpty && !e.endDate.isEmpty then
            [("| Graduated: ".data) ++ e.endDate]
           else if !e.endDate.isEmpty then [("| Graduated: ".data) ++ e.endDate]
           else [])
        let additional :=
          (if !e.gpa.isEmpty then [("GPA: ".data) ++ e.gpa] else []) ++
          (if !e.achievements.isEmpty && !(pyStrip e.achievements).isEmpty then
            [pyStrip e.achievements] else [])
        let entryParts :=
          (if !degreeField.isEmpty then [joinWith (" ".data) degreeField] else []) ++
          (if !institutionInfo.isEmpty then [joinWith (" ".data) institutionInfo]
           else []) ++
          (if !additional.isEmpty then [joinWith (", ".data) additional] else [])
        if entryParts.isEmpty then [] else entryParts ++ [[]]
    let sectionParts :=
      popTrailingEmpty (("Education".data) :: d.education_entries.flatMap entryLines)
    let sectionParts :=
      if 1 < sectionParts.length then sectionParts ++ [sep50] else sectionParts
    if 2 < sectionParts.length then joinWith ("\n".data) sectionParts else []

/-- `_build_experience_section` of `resume_builder.py`. -/
def build_experience_section (d : ResumeData) : List Char :=
  if d.experience_entries.isEmpty && !d.experience.isEmpty then
    let enhanced := enhance_experience d.experience
    if !enhanced.isEmpty then
      joinWith ("\n".data) [("Experience".data), enhanced, sep50]
    else []
  else if d.experience_entries.isEmpty then []
  else
    let entryLines : ExpEntry → List (List Char) := fun e =>
      if !(!e.company.isEmpty || !e.title.isEmpty) then []
      else
        let jobLine :=
          (if !e.title.isEmpty then [e.title] else []) ++
          (if !e.company.isEmpty then [(", ".data) ++ e.company] else [])
        (if !jobLine.isEmpty then [jobLine.flatten] else []) ++
        (if !e.startDate.isEmpty && !e.endDate.isEmpty then
          [e.startDate ++ (" - ".data) ++ e.endDate]
         else if !e.startDate.isEmpty then [e.startDate ++ (" - Present".data)]
         else []) ++
        (if !e.responsibilities.isEmpty && !(pyStrip e.responsibilities).isEmpty then
          bulletize (enhance_experience (pyStrip e.responsibilities))
         else []) ++
        (if !e.achievements.isEmpty && !(pyStrip e.achievements).isEmpty then
          bulletize (enhance_experience (pyStrip e.achievements))
         else []) ++
        [[]]
    let sectionParts :=
      popTrailingEmpty (("Experience".data) :: d.experience_entries.flatMap entryLines)
    let sectionParts :=
      if 1 < sectionParts.length then sectionParts ++ [sep50] else sectionParts
    if 2 < sectionParts.length then joinWith ("\n".data) sectionParts else []

/-- `_build_projects_section` of `resume_builder.py`. -/
def build_projects_section (d : ResumeData) : List Char :=
  if d.project_entries.isEmpty && !d.projects.isEmpty then
    let enhanced := enhance_projects d.projects
    if !enhanced.isEmpty then
      joinWith ("\n".data) [("Projects".data), enhanced, sep50]
    else []
  else if d.project_entries.isEmpty then []
  else
    let entryLines : ProjEntry → List (List Char) := fun e =>
      if !(!e.name.isEmpty || !e.description.isEmpty) then []
      else
        (if !e.name.isEmpty then
          [e.name ++
            (if !e.startDate.isEmpty && !e.endDate.isEmpty then
              (", ".data) ++ e.startDate ++ (" - ".data) ++ e.endDate
             else [])]
         else []) ++
        (if !e.description.isEmpty && !(pyStrip e.description).isEmpty then
          bulletize (enhance_projects (pyStrip e.description))
         else []) ++
        (if !e.technologies.isEmpty && !(pyStrip e.technologies).isEmpty then
          [("• Technologies: ".data) ++ pyStrip e.technologies]
         else []) ++
        (if !e.link.isEmpty then [("• Link: ".data) ++ e.link] else []) ++
        [[]]
    let sectionParts :=
      popTrailingEmpty (("Projects".data) :: d.project_entries.flatMap entryLines)
    let sectionParts :=
      if 1 < sectionParts.length then sectionParts ++ [sep50] else sectionParts
    if 2 < sectionParts.length then joinWith ("\n".data) sectionParts else []

/-- `_build_custom_sections` of `resume_builder.py`. -/
def build_custom_sections (d : ResumeData) : List (List Char) :=
  d.custom_sections.filterMap fun sec =>
    let title := pyStrip sec.title
    let content := pyStrip sec.content
    if title.isEmpty || content.isEmpty then none
    else
      let enhanced := enhance_custom_section content
      if enhanced.isEmpty then none
      else some (joinWith ("\n".data) [pyTitle title, enhanced, sep50])

/-- The section list assembled by `generate_resume` (each non-empty
section is appended in the fixed order). -/
def assemble_sections (d : ResumeData) : List (List Char) :=
  (if !(build_header_section d).isEmpty then [build_header_section d] else []) ++
  (if !(build_summary_section d).isEmpty then [build_summary_section d] else []) ++
  (if !(build_skills_section d).isEmpty then [build_skills_section d] else []) ++
  (if !(build_education_section d).isEmpty then [build_education_section d] else []) ++
  (if !(build_experience_section d).isEmpty then [build_experience_section d] else []) ++
  (if !(build_projects_section d).isEmpty then [build_projects_section d] else []) ++
  build_custom_sections d

/-- `_create_fallback_resume` of `resume_builder.py`. -/
def create_fallback_resume (d : ResumeData) : List Char :=
  let nm := if d.name.isEmpty then ("Professional Resume".data) else d.name
  let contact :=
    (if !d.location.isEmpty then [d.location] else []) ++
    (if !d.email.isEmpty then [d.email] else []) ++
    (if !d.phone.isEmpty then [d.phone] else [])
  let parts :=
    [pyTitle nm] ++
    (if !contact.isEmpty then [joinWith (" | ".data) contact, []] else []) ++
    (if !d.objective.isEmpty then
      [("Professional Summary".data), d.objective, sep50, []] else []) ++
    (if !d.skills.isEmpty then [("Skills".data), d.skills, sep50, []] else []) ++
    (if !d.experience.isEmpty then
      [("Experience".data), d.experience, sep50, []] else []) ++
    (if !d.education.isEmpty then
      [("Education".data), d.education, sep50, []] else []) ++
    (if !d.projects.isEmpty then [("Projects".data), d.projects, sep50] else [])
  joinWith ("\n".data) parts

/-- `generate_resume` of `resume_builder.py`.  The `style` argument is
used by the source only in log messages. -/
def generate_resume (d : ResumeData) (style : List Char) : List Char :=
  let complete := joinWith ("\n".data) (assemble_sections d)
  pyStrip (if (pyStrip complete).isEmpty then create_fallback_resume d else complete)

/-- `generate_resume` with the input record threaded through every
section builder in source order.  The source performs only `dict.get`
reads on `data` (and on each entry mapping); no builder writes to it, so
each step passes the record through unchanged. -/
def generate_resume_tracked (d : ResumeData) (style : List Char) :
    List Char × ResumeData :=
  let (header, d1) := (build_header_section d, d)
  let (summary, d2) := (build_summary_section d1, d1)
  let (skills, d3) := (build_skills_section d2, d2)
  let (education, d4) := (build_education_section d3, d3)
  let (experience, d5) := (build_experience_section d4, d4)
  let (projects, d6) := (build_projects_section d5, d5)
  let (customs, d7) := (build_custom_sections d6, d6)
  let sections :=
    (if !header.isEmpty then [header] else []) ++
    (if !summary.isEmpty then [summary] else []) ++
    (if !skills.isEmpty then [skills] else []) ++
    (if !education.isEmpty then [education] else []) ++
    (if !experience.isEmpty then [experience] else []) ++
    (if !projects.isEmpty then [projects] else []) ++
    customs
  let complete := joinWith ("\n".data) sections
  (pyStrip (if (pyStrip complete).isEmpty then create_fallback_resume d7 else complete),
   d7)

def sep30 : List Char := List.replicate 30 '-'

/-- `_create_minimal_fallback` of `simple_builder.py`. -/
def create_minimal_fallback (d : ResumeData) : List Char :=
  let nm := if d.name.isEmpty then ("Professional Resume".data) else d.name
  let contact :=
    (if !d.email.isEmpty then [("Email: ".data) ++ d.email] else []) ++
    (if !d.phone.isEmpty then [("Phone: ".data) ++ d.phone] else []) ++
    (if !d.location.isEmpty then [("Location: ".data) ++ d.location] else []) ++
    (if !d.linkedin.isEmpty then [("LinkedIn: ".data) ++ d.linkedin] else []) ++
    (if !d.website.isEmpty then [("Website: ".data) ++ d.website] else [])
  let eduEntryLines : EduEntry → List (List Char) := fun e =>
    let entryParts :=
      (if !e.degree.isEmpty then [e.degree] else []) ++
      (if !e.field.isEmpty then [("in ".data) ++ e.field] else []) ++
      (if !e.institution.isEmpty then [("from ".data) ++ e.institution] else []) ++
      (if !e.startDate.isEmpty && !e.endDate.isEmpty then
        [("(".data) ++ e.startDate ++ (" - ".data) ++ e.endDate ++ (")".data)]
       else if !e.endDate.isEmpty then [("(".data) ++ e.endDate ++ (")".data)]
       else [])
    (if !entryParts.isEmpty then [("• ".data) ++ joinWith (" ".data) entryParts]
     else []) ++
    (if !e.gpa.isEmpty then [("  GPA: ".data) ++ e.gpa] else []) ++
    (if !e.achievements.isEmpty then [("  ".data) ++ e.achievements] else [])
  let expEntryLines : ExpEntry → List (List Char) := fun e =>
    if !e.title.isEmpty && !e.company.isEmpty then
      let jobHeader := e.title ++ (" at ".data) ++ e.company ++
        (if !e.startDate.isEmpty && !e.endDate.isEmpty then
          (" (".data) ++ e.startDate ++ (" - ".data) ++ e.endDate ++ (")".data)
         else if !e.startDate.isEmpty then
          (" (".data) ++ e.startDate ++ (" - Present)".data)
         else [])
      [("• ".data) ++ jobHeader] ++
      ((splitChars (fun c => c == '\n') e.responsibilities).filterMap fun line =>
        if (pyStrip line).isEmpty then none
        else some (("  • ".data) ++ pyStrip line)) ++
      ((splitChars (fun c => c == '\n') e.achievements).filterMap fun line =>
        if (pyStrip line).isEmpty then none
        else some (("  • ".data) ++ pyStrip line)) ++
      [[]]
    else []
  let projEntryLines : ProjEntry → List (List Char) := fun e =>
    if !e.name.isEmpty then
      [("• ".data) ++ e.name ++
        (if !e.link.isEmpty then (" (".data) ++ e.link ++ (")".data) else [])] ++
      (if !e.description.isEmpty then [("  ".data) ++ e.description] else []) ++
      (if !e.technologies.isEmpty then
        [("  Technologies: ".data) ++ e.technologies] else []) ++
      [[]]
    else []
  let parts :=
    [upperList nm, List.replicate nm.length '=', []] ++
    (if !contact.isEmpty then [joinWith (" | ".data) contact, []] else []) ++
    (if !d.objective.isEmpty then
      [("PROFESSIONAL SUMMARY".data), sep30, d.objective, []] else []) ++
    (if !d.skills.isEmpty then
      [("TECHNICAL SKILLS".data), sep30, d.skills, []] else []) ++
    (if !d.education_entries.isEmpty then
      [("EDUCATION".data), sep30] ++ d.education_entries.flatMap eduEntryLines ++ [[]]
     else if !d.education.isEmpty then
      [("EDUCATION".data), sep30, d.education, []]
     else []) ++
    (if !d.experience_entries.isEmpty then
      [("PROFESSIONAL EXPERIENCE".data), sep30] ++
        d.experience_entries.flatMap expEntryLines ++ [[]]
     else if !d.experience.isEmpty then
      [("PROFESSIONAL EXPERIENCE".data), sep30, d.experience, []]
     else []) ++
    (if !d.project_entries.isEmpty then
      [("PROJECTS".data), sep30] ++ d.project_entries.flatMap projEntryLines ++ [[]]
     else if !d.projects.isEmpty then
      [("PROJECTS".data), sep30, d.projects, []]
     else []) ++
    (d.custom_sections.flatMap fun sec =>
      if !sec.title.isEmpty && !sec.content.isEmpty then
        [upperList sec.title, sep30, sec.content, []]
      else [])
  joinWith ("\n".data) parts

/-- `generate_resume` of `simple_builder.py`: delegates to the
production builder and falls back to the minimal renderer on empty
output.  `style` is only logged. -/
def simple_generate_resume (d : ResumeData) (style : List Char) : List Char :=
  let resume_text := generate_resume d style
  if resume_text.isEmpty || (pyStrip resume_text).isEmpty then
    create_minimal_fallback d
  else resume_text

/-! ## Embedding of `exporter.py` and `simple_exporter.py`.
The `python-docx` / `reportlab` serialization calls are external
libraries; they are abstracted as a caller-supplied serializer that
returns `none` when it raises, which is exactly the case the source's
`except` clause (and the claims) are about.  Everything the source
computes before and after those calls — line classification, paragraph
construction, the fallback write — is embedded directly. -/

/-- The classification result of `_classify_line`. -/
inductive LineType where
  | nameHeader
  | contactInfo
  | sectionHeader
  | separator
  | bulletPoint
  | subBullet
  | bodyText
deriving DecidableEq, Repr

/-- Python `str.isupper()` (ASCII): at least one letter and no lowercase
letter. -/
def pyIsUpper (l : List Char) : Bool :=
  (l.any fun c => c.isAlpha) && (l.all fun c => !c.isLower)

/-- The recognized section-header vocabulary of `_is_section_header`. -/
def exporter_section_headers : List (List Char) :=
  ["professional summary".data, "professional objective".data,
   "technical skills".data, "professional experience".data, "education".data,
   "projects".data, "skills".data, "experience".data, "summary".data,
   "objective".data, "certifications".data, "awards".data, "languages".data,
   "volunteer experience".data, "publications".data, "achievements".data]

/-- `_is_section_header` of `exporter.py`. -/
def is_section_header (line : List Char) : Bool :=
  exporter_section_headers.contains (pyStrip (lowerList line)) ||
    (pyIsUpper line && decide ((pySplitWS line).length ≤ 4) &&
      decide (3 < line.length))

/-- `_is_separator_line` of `exporter.py`. -/
def is_separator_line (line : List Char) : Bool :=
  decide (2 < line.length) &&
    ((pyStrip line).all fun c => c == '=' || c == '-' || c == '_') &&
    decide ((pyStrip line).eraseDups.length ≤ 2)

/-- `_classify_line` of `exporter.py` (its `all_lines` parameter is
unused by the source). -/
def classify_line (line : List Char) (index : Nat) : LineType :=
  let line_lower := pyStrip (lowerList line)
  if decide (index ≤ 2) && pyIsUpper line && !is_section_header line then
    .nameHeader
  else if (["email:".data, "phone:".data, "@".data, "|".data, "•".data].any
      fun ind => containsSub ind line_lower) &&
      !startsWithL ("•".data) line then
    .contactInfo
  else if is_section_header line then .sectionHeader
  else if is_separator_line line then .separator
  else if startsWithL ("  •".data) line || startsWithL ("    •".data) line then
    .subBullet
  else if startsWithL ("•".data) line || startsWithL ("- ".data) line then
    .bulletPoint
  else .bodyText

/-- `_clean_bullet_text` of `exporter.py`. -/
def clean_bullet_text (line : List Char) : List Char :=
  let cleaned := pyStrip line
  if startsWithL ("•".data) cleaned then pyStrip (cleaned.drop 1)
  else if startsWithL ("- ".data) cleaned then pyStrip (cleaned.drop 2)
  else if startsWithL ("  •".data) cleaned then pyStrip (cleaned.drop 3)
  else if startsWithL ("    •".data) cleaned then pyStrip (cleaned.drop 5)
  else cleaned

/-- One paragraph added to the DOCX document, tagged by the `_add_*`
helper that produced it (each helper applies a fixed font/style). -/
structure DocxPar where
  kind : List Char
  text : List Char
deriving DecidableEq, Repr

/-- The paragraph sequence built by `export_to_docx` before saving. -/
def build_docx_pars (resume_text : List Char) : List DocxPar :=
  (splitChars (fun c => c == '\n') resume_text).enum.map fun il =>
    let line := pyStrip il.2
    if line.isEmpty then ⟨"empty".data, []⟩
    else
      match classify_line line il.1 with
      | .nameHeader => ⟨"name_header".data, line⟩
      | .contactInfo => ⟨"contact_info".data, line⟩
      | .sectionHeader => ⟨"section_header".data, line⟩
      | .separator => ⟨"separator".data, List.replicate 30 '_'⟩
      | .bulletPoint => ⟨"bullet_point".data, ("• ".data) ++ clean_bullet_text line⟩
      | .subBullet => ⟨"sub_bullet".data, ("    • ".data) ++ clean_bullet_text line⟩
      | .bodyText => ⟨"body_text".data, line⟩

/-- A file written to disk. -/
structure FileWrite where
  path : List Char
  content : List Char
deriving DecidableEq, Repr

/-- `_save_as_text_fallback` of `exporter.py`: the fallback text file is
written under the output path with `'.docx'`/`'.pdf'` replaced by
`'.txt'`, and its content is the resume text itself. -/
def save_as_text_fallback (resume_text output_path : List Char) : FileWrite :=
  ⟨replaceSub (".pdf".data) (".txt".data)
      (replaceSub (".docx".data) (".txt".data) output_path),
    resume_text⟩

/-- `export_to_docx` of `exporter.py`, with the `python-docx` save
abstracted: `save` returns the written file, or `none` when the library
raises; in that case the text fallback is written. -/
def export_to_docx (save : List DocxPar → List Char → Option FileWrite)
    (resume_text output_path : List Char) : FileWrite :=
  match save (build_docx_pars resume_text) output_path with
  | some w => w
  | none => save_as_text_fallback resume_text output_path

/-- One flowable appended to the reportlab story. -/
inductive StoryElem where
  | spacer (h : Nat)
  | par (style : List Char) (text : List Char)
  | pageBreak
  | lineTable
deriving DecidableEq, Repr

/-- The story built by `export_to_pdf` of `exporter.py`: per line, the
fixed per-line-type paragraph style; separators are skipped; no page
break is ever inserted. -/
def build_pdf_story (resume_text : List Char) : List StoryElem :=
  (splitChars (fun c => c == '\n') resume_text).enum.flatMap fun il =>
    let line := pyStrip il.2
    if line.isEmpty then [.spacer 6]
    else
      match classify_line line il.1 with
      | .nameHeader => [.par ("NameHeader".data) line]
      | .contactInfo => [.par ("ContactInfo".data) line]
      | .sectionHeader => [.spacer 8, .par ("SectionHeader".data) line]
      | .separator => []
      | .bulletPoint =>
        [.par ("BulletPoint".data) (("• ".data) ++ clean_bullet_text line)]
      | .subBullet =>
        [.par ("SubBulletPoint".data) (("    • ".data) ++ clean_bullet_text line)]
      | .bodyText => [.par ("BodyText".data) line]

/-- `export_to_pdf` of `exporter.py`, with the reportlab build
abstracted just as for DOCX. -/
def export_to_pdf (build : List StoryElem → List Char → Option FileWrite)
    (resume_text output_path : List Char) : FileWrite :=
  match build (build_pdf_story resume_text) output_path with
  | some w => w
  | none => save_as_text_fallback resume_text output_path

/-- The section-header vocabulary of `simple_exporter.export_to_pdf`. -/
def simple_pdf_headers : List (List Char) :=
  ["Professional Summary".data, "Summary".data, "Objective".data,
   "Skills".data, "Technical Skills".data, "Core Competencies".data,
   "Education".data, "Academic Background".data,
   "Experience".data, "Professional Experience".data, "Work Experience".data,
   "Projects".data, "Key Projects".data, "Notable Projects".data,
   "Certifications".data, "Certificates".data, "Awards".data,
   "Achievements".data, "Accomplishments".data]

/-- One line of `simple_exporter.export_to_pdf`'s loop: from
`(is_first_section, current_section_lines)` and the enumerated line,
produce the new state and the emitted story elements.  A `PageBreak` is
emitted when a new section header is reached after a section accumulated
more than 25 rendered lines. -/
def simple_pdf_step (st : Bool × Nat) (il : Nat × List Char) :
    (Bool × Nat) × List StoryElem :=
  let isFirst := st.1
  let count := st.2
  let i := il.1
  let line := pyStrip il.2
  if line.isEmpty then ((isFirst, count), [.spacer 2])
  else if startsWithL ("-".data) line && decide (line.eraseDups.length ≤ 2) then
    ((isFirst, count), [])
  else if (simple_pdf_headers.any fun h =>
        containsSub (lowerList h) (lowerList line)) && decide (line.length < 50) then
    let breaks : List StoryElem :=
      if decide (25 < count) && !isFirst then [.pageBreak] else []
    ((false, 0), breaks ++ [.par ("SectionHeader".data) line, .lineTable])
  else if i == 0 ||
      (!line.isEmpty &&
        !(containsSub ("|".data) line || containsSub ("@".data) line ||
          containsSub ("http".data) line) &&
        decide ((pySplitWS line).length ≤ 4)) then
    if i == 0 then ((isFirst, 0), [.par ("ResumeName".data) line])
    else ((isFirst, count + 1), [.par ("SubsectionText".data) line])
  else if containsSub ("|".data) line &&
      (["email".data, "phone".data, "linkedin".data, "location".data,
        "@".data, "http".data].any fun w => containsSub w (lowerList line)) then
    ((isFirst, count + 1), [.par ("ContactInfo".data) line])
  else if startsWithL ("•".data) line || startsWithL ("-".data) line ||
      startsWithL ("▸".data) line then
    ((isFirst, count + 1),
      [.par ("BulletText".data) (("• ".data) ++ pyStrip (line.drop 1))])
  else if startsWithL ("  •".data) line || startsWithL ("  -".data) line then
    ((isFirst, count + 1),
      [.par ("SubBulletText".data) (("• ".data) ++ pyStrip (line.drop 3))])
  else
    let isSub :=
      decide (line.length < 100) &&
        ((["university".data, "college".data, "bachelor".data, "master".data,
            "intern".data, "engineer".data, "developer".data, "manager".data,
            "graduated".data].any fun w => containsSub w (lowerList line)) ||
          (containsSub (",".data) line &&
            decide ((splitChars (fun c => c == ',') line).length == 2)) ||
          (decide ((pySplitWS line).length ≤ 10) &&
            !startsWithL ("•".data) line && !startsWithL ("-".data) line &&
            !containsSub (":".data) line))
    if isSub then ((isFirst, count + 1), [.par ("SubsectionText".data) line])
    else ((isFirst, count + 1), [.par ("BodyText".data) line])

/-- The story built by `simple_exporter.export_to_pdf`. -/
def build_simple_pdf_story (resume_text : List Char) : List StoryElem :=
  ((splitChars (fun c => c == '\n') resume_text).enum.foldl
    (fun acc il =>
      let stepOut := simple_pdf_step acc.1 il
      (stepOut.1, acc.2 ++ stepOut.2))
    ((true, 0), [])).2

/-- `simple_exporter._save_as_text_fallback`: writes the text file under
the extension-swapped path, then copies it to the original requested
path (`shutil.copy2`), so the untouched text ends up under both paths. -/
def simple_save_as_text_fallback (resume_text original_filepath fmt : List Char) :
    List FileWrite :=
  let text_filepath :=
    replaceSub (('.' :: fmt)) (".txt".data) original_filepath
  [⟨text_filepath, resume_text⟩, ⟨original_filepath, resume_text⟩]

/-- A concrete assembled document whose `Skills` section accumulates 27
rendered lines before the next section header. -/
def longSectionDoc : List Char :=
  joinWith ("\n".data)
    ([("Skills".data)] ++ List.replicate 27 ("• alpha beta".data) ++
      [("Education".data)])

/-! ## Theorems: basic utilities -/

theorem takeWhile_app {p : Char → Bool} {a : List Char} (b : List Char)
    (h : a.all p) : (a ++ b).takeWhile p = a ++ b.takeWhile p := by
  induction a with
  | nil => simp
  | cons c cs ih =>
    simp only [List.all_cons, Bool.and_eq_true] at h
    simp [List.takeWhile_cons, h.1, ih h.2]

theorem dropWhile_app {p : Char → Bool} {a : List Char} (b : List Char)
    (h : a.all p) : (a ++ b).dropWhile p = b.dropWhile p := by
  induction a with
  | nil => simp
  | cons c cs ih =>
    simp only [List.all_cons, Bool.and_eq_true] at h
    simp [List.dropWhile_cons, h.1, ih h.2]

theorem takeWhile_eq_nil_of_head {p : Char → Bool} {b : List Char}
    (h : ∀ c, b.head? = some c → p c = false) : b.takeWhile p = [] := by
  cases b with
  | nil => rfl
  | cons c cs => simp [List.takeWhile_cons, h c rfl]

theorem dropWhile_eq_self_of_head {p : Char → Bool} {b : List Char}
    (h : ∀ c, b.head? = some c → p c = false) : b.dropWhile p = b := by
  cases b with
  | nil => rfl
  | cons c cs => simp [List.dropWhile_cons, h c rfl]

theorem dropWhile_head_false {p : Char → Bool} :
    ∀ (l : List Char) {c : Char} {cs : List Char},
      l.dropWhile p = c :: cs → p c = false := by
  intro l
  induction l with
  | nil => intro c cs h; simp at h
  | cons a as ih =>
    intro c cs h
    by_cases hp : p a
    · rw [List.dropWhile_cons_of_pos hp] at h; exact ih h
    · rw [List.dropWhile_cons_of_neg hp] at h
      cases h
      exact Bool.of_not_eq_true hp

theorem length_dropWhile_le (p : Char → Bool) (l : List Char) :
    (l.dropWhile p).length ≤ l.length := by
  induction l with
  | nil => simp
  | cons a as ih =>
    by_cases hp : p a
    · rw [List.dropWhile_cons_of_pos hp]; exact Nat.le_succ_of_le ih
    · rw [List.dropWhile_cons_of_neg hp]

/-! ## Theorems: fuel irrelevance and unfolding equations -/

theorem replaceSubF_fuel (pat rep : List Char) :
    ∀ (n m : Nat) (l : List Char), l.length ≤ n → l.length ≤ m →
      replaceSubF pat rep n l = replaceSubF pat rep m l := by
  intro n
  induction n with
  | zero =>
    intro m l hn _
    have : l = [] := List.length_eq_zero.mp (Nat.le_zero.mp hn)
    subst this
    cases m <;> rfl
  | succ n ih =>
    intro m l hn hm
    cases l with
    | nil => cases m <;> rfl
    | cons c cs =>
      cases m with
      | zero => simp at hm
      | succ m =>
        simp only [replaceSubF]
        by_cases hs : startsWithL pat (c :: cs) && !pat.isEmpty
        · rw [if_pos hs, if_pos hs]
          congr 1
          apply ih
          · simp only [List.length_drop]
            simp only [List.length_cons] at hn
            omega
          · simp only [List.length_drop]
            simp only [List.length_cons] at hm
            omega
        · rw [if_neg hs, if_neg hs]
          congr 1
          apply ih
          · simp only [List.length_cons] at hn; omega
          · simp only [List.length_cons] at hm; omega

theorem replaceSub_nil (pat rep : List Char) : replaceSub pat rep [] = [] := rfl

theorem replaceSub_cons_pos {pat : List Char} (rep : List Char) {c : Char}
    {cs : List Char} (h : (startsWithL pat (c :: cs) && !pat.isEmpty) = true) :
    replaceSub pat rep (c :: cs) = rep ++ replaceSub pat rep (cs.drop (pat.length - 1)) := by
  rw [replaceSub, replaceSub]
  simp only [List.length_cons, replaceSubF, if_pos h]
  congr 1
  apply replaceSubF_fuel
  · simp only [List.length_drop]; omega
  · exact Nat.le_refl _

theorem replaceSub_cons_neg {pat : List Char} (rep : List Char) {c : Char}
    {cs : List Char} (h : ¬ (startsWithL pat (c :: cs) && !pat.isEmpty) = true) :
    replaceSub pat rep (c :: cs) = c :: replaceSub pat rep cs := by
  rw [replaceSub, replaceSub]
  simp only [List.length_cons, replaceSubF, if_neg h]

theorem tokenizeF_fuel :
    ∀ (n m : Nat) (l : List Char), l.length ≤ n → l.length ≤ m →
      tokenizeF n l = tokenizeF m l := by
  intro n
  induction n with
  | zero =>
    intro m l hn _
    have : l = [] := List.length_eq_zero.mp (Nat.le_zero.mp hn)
    subst this
    cases m <;> rfl
  | succ n ih =>
    intro m l hn hm
    cases l with
    | nil => cases m <;> rfl
    | cons c cs =>
      cases m with
      | zero => simp at hm
      | succ m =>
        simp only [tokenizeF]
        congr 1
        apply ih
        · have := length_dropWhile_le (fun d => isWordChar d == isWordChar c) cs
          simp only [List.length_cons] at hn
          omega
        · have := length_dropWhile_le (fun d => isWordChar d == isWordChar c) cs
          simp only [List.length_cons] at hm
          omega

theorem tokenize_nil : tokenize [] = [] := rfl

theorem tokenize_cons (c : Char) (cs : List Char) :
    tokenize (c :: cs) =
      (if isWordChar c then Tok.word (c :: cs.takeWhile (fun d => isWordChar d == isWordChar c))
       else Tok.sep (c :: cs.takeWhile (fun d => isWordChar d == isWordChar c))) ::
        tokenize (cs.dropWhile (fun d => isWordChar d == isWordChar c)) := by
  rw [tokenize, tokenize]
  simp only [List.length_cons, tokenizeF]
  congr 1
  apply tokenizeF_fuel
  · exact length_dropWhile_le _ _
  · exact Nat.le_refl _

theorem tokenize_head_isWord {c : Char} {cs : List Char} {t : Tok} {ts : List Tok}
    (h : tokenize (c :: cs) = t :: ts) : t.isWord = isWordChar c := by
  rw [tokenize_cons] at h
  by_cases hw : isWordChar c
  · simp [hw] at h; rw [← h.1]; simp [Tok.isWord, hw]
  · simp [hw] at h; rw [← h.1]; simp [Tok.isWord]
    exact Bool.of_not_eq_true hw

theorem tryMatch_length :
    ∀ (P : List PatElem) (l rest : List Tok),
      tryMatch P l = some rest → rest.length ≤ l.length := by
  intro P
  induction P with
  | nil => intro l rest h; rw [tryMatch] at h; cases h; exact Nat.le_refl _
  | cons p ps ih =>
    intro l rest h
    cases l with
    | nil => rw [tryMatch] at h; cases h
    | cons t ts =>
      rw [tryMatch] at h
      by_cases hmt : matchTok p t
      · rw [if_pos hmt] at h
        exact Nat.le_succ_of_le (ih ts rest h)
      · rw [if_neg hmt] at h; cases h

theorem goTokF_fuel (q0 : PatElem) (Q : List PatElem) (R : List Tok) :
    ∀ (n m : Nat) (ts : List Tok), ts.length ≤ n → ts.length ≤ m →
      goTokF q0 Q R n ts = goTokF q0 Q R m ts := by
  intro n
  induction n with
  | zero =>
    intro m ts hn _
    have : ts = [] := List.length_eq_zero.mp (Nat.le_zero.mp hn)
    subst this
    cases m <;> rfl
  | succ n ih =>
    intro m ts hn hm
    cases ts with
    | nil => cases m <;> rfl
    | cons t ts =>
      cases m with
      | zero => simp at hm
      | succ m =>
        simp only [goTokF]
        cases hmt : tryMatch (q0 :: Q) (t :: ts) with
        | some rest =>
          have hlen : rest.length ≤ ts.length := by
            rw [tryMatch] at hmt
            by_cases hq : matchTok q0 t
            · rw [if_pos hq] at hmt
              exact tryMatch_length Q ts rest hmt
            · rw [if_neg hq] at hmt; cases hmt
          dsimp only
          congr 1
          apply ih
          · simp only [List.length_cons] at hn; omega
          · simp only [List.length_cons] at hm; omega
        | none =>
          dsimp only
          congr 1
          apply ih
          · simp only [List.length_cons] at hn; omega
          · simp only [List.length_cons] at hm; omega

theorem goTok_nil (q0 : PatElem) (Q : List PatElem) (R : List Tok) :
    goTok q0 Q R [] = [] := rfl

theorem goTok_cons_of_match {q0 : PatElem} {Q : List PatElem} {t : Tok}
    {ts rest : List Tok} (R : List Tok)
    (h : tryMatch (q0 :: Q) (t :: ts) = some rest) :
    goTok q0 Q R (t :: ts) = R ++ goTok q0 Q R rest := by
  rw [goTok, goTok]
  simp only [List.length_cons, goTokF, h]
  congr 1
  apply goTokF_fuel
  · rw [tryMatch] at h
    by_cases hq : matchTok q0 t
    · rw [if_pos hq] at h
      exact tryMatch_length Q ts rest h
    · rw [if_neg hq] at h; cases h
  · exact Nat.le_refl _

theorem goTok_cons_of_none {q0 : PatElem} {Q : List PatElem} {t : Tok}
    {ts : List Tok} (R : List Tok)
    (h : tryMatch (q0 :: Q) (t :: ts) = none) :
    goTok q0 Q R (t :: ts) = t :: goTok q0 Q R ts := by
  rw [goTok, goTok]
  simp only [List.length_cons, goTokF, h]

/-! ## Theorems: the word-boundary substitution scanner -/

theorem tryMatch_cons_pos {p : PatElem} {ps : List PatElem} {t : Tok}
    {ts : List Tok} (h : matchTok p t = true) :
    tryMatch (p :: ps) (t :: ts) = tryMatch ps ts := by
  rw [tryMatch, if_pos h]

theorem tryMatch_cons_neg {p : PatElem} {ps : List PatElem} {t : Tok}
    {ts : List Tok} (h : ¬ matchTok p t = true) :
    tryMatch (p :: ps) (t :: ts) = none := by
  rw [tryMatch, if_neg h]

theorem tryMatch_some_drop :
    ∀ (P : List PatElem) (l rest : List Tok),
      tryMatch P l = some rest → rest = l.drop P.length := by
  intro P
  induction P with
  | nil =>
    intro l rest h
    rw [tryMatch] at h
    cases h
    rfl
  | cons p ps ih =>
    intro l rest h
    cases l with
    | nil => rw [tryMatch] at h; cases h
    | cons t ts =>
      by_cases hmt : matchTok p t
      · rw [tryMatch_cons_pos hmt] at h
        simpa using ih ts rest h
      · rw [tryMatch_cons_neg hmt] at h; cases h

theorem matchAtB_nil_true (l : List Tok) : matchAtB [] l = true := by
  rw [matchAtB, tryMatch]
  rfl

theorem matchAtB_cons_nil (p : PatElem) (P : List PatElem) :
    matchAtB (p :: P) [] = false := by
  rw [matchAtB, tryMatch]
  rfl

theorem occursB_nil (P : List PatElem) : occursB P [] = matchAtB P [] := by
  rw [occursB]

theorem occursB_cons (P : List PatElem) (t : Tok) (ts : List Tok) :
    occursB P (t :: ts) = (matchAtB P (t :: ts) || occursB P ts) := by
  rw [occursB]

theorem occursB_drop {P : List PatElem} :
    ∀ (l : List Tok) (n : Nat), occursB P (l.drop n) = true → occursB P l = true := by
  intro l
  induction l with
  | nil => intro n h; simpa using h
  | cons t ts ih =>
    intro n h
    cases n with
    | zero => simpa using h
    | succ n =>
      rw [List.drop_succ_cons] at h
      rw [occursB_cons]
      rw [ih n h]
      simp

theorem mem_patWords_cons {x : List Char} (p : PatElem) {P : List PatElem}
    (h : x ∈ patWords P) : x ∈ patWords (p :: P) := by
  cases p with
  | pword w => rw [patWords] at *; simpa [List.filterMap_cons] using Or.inr h
  | psep => rw [patWords] at *; simpa [List.filterMap_cons] using h

theorem occursB_chunk_start {f : List Char} {P' : List PatElem} {X : List Tok} :
    ∀ (R : List Tok), (∀ cs, Tok.word cs ∈ R → lowerList cs ≠ f) →
      occursB (PatElem.pword f :: P') (R ++ X) = true →
      occursB (PatElem.pword f :: P') X = true := by
  intro R
  induction R with
  | nil => intro _ h; simpa using h
  | cons r R' ih =>
    intro hR h
    rw [List.cons_append, occursB_cons] at h
    have hmt : matchTok (PatElem.pword f) r = false := by
      cases r with
      | word cs =>
        have : lowerList cs ≠ f := hR cs (by simp)
        simp [matchTok, this]
      | sep cs => simp [matchTok]
    rw [matchAtB, tryMatch_cons_neg (by simp [hmt])] at h
    simp only [Option.isSome_none, Bool.false_or] at h
    exact ih (fun cs hcs => hR cs (by simp [hcs])) h

theorem match_transfer {q0 : PatElem} {Q : List PatElem} {R : List Tok}
    {w0 : List Char} (hR : R.head? = some (Tok.word w0)) :
    ∀ (ts : List Tok) (P : List PatElem), lowerList w0 ∉ patWords P →
      matchAtB P (goTok q0 Q R ts) = true → matchAtB P ts = true := by
  intro ts
  induction ts with
  | nil =>
    intro P hP h
    rw [goTok_nil] at h
    exact h
  | cons t ts ih =>
    intro P hP h
    cases hm : tryMatch (q0 :: Q) (t :: ts) with
    | some rest =>
      rw [goTok_cons_of_match R hm] at h
      cases P with
      | nil => exact matchAtB_nil_true _
      | cons p P' =>
        exfalso
        obtain ⟨R', rfl⟩ : ∃ R', R = Tok.word w0 :: R' := by
          cases R with
          | nil => simp at hR
          | cons r R' =>
            simp only [List.head?_cons, Option.some.injEq] at hR
            exact ⟨R', by rw [hR]⟩
        have hmt : matchTok p (Tok.word w0) = false := by
          cases p with
          | pword w =>
            by_cases hw : lowerList w0 = w
            · exfalso
              apply hP
              rw [← hw] at *
              rw [patWords, List.filterMap_cons]
              simp
            · simp [matchTok, hw]
          | psep => simp [matchTok]
        rw [List.cons_append, matchAtB, tryMatch_cons_neg (by simp [hmt])] at h
        simp at h
    | none =>
      rw [goTok_cons_of_none R hm] at h
      cases P with
      | nil => exact matchAtB_nil_true _
      | cons p P' =>
        by_cases hmt : matchTok p t
        · rw [matchAtB, tryMatch_cons_pos hmt] at h
          rw [matchAtB, tryMatch_cons_pos hmt]
          exact ih P' (fun hmem => hP (mem_patWords_cons p hmem)) h
        · rw [matchAtB, tryMatch_cons_neg hmt] at h
          simp at h

/-- Core lemma: replacing pattern `q0 :: Q` by chunk `R` leaves no
boundary-delimited occurrence of pattern `pword f :: P'`, provided
(a) the pattern either did not occur before or is the very pattern being
replaced, (b) the chunk's first word is not a word of the pattern, and
(c) no word of the chunk equals the pattern's first word. -/
theorem noOccurs_goTok {q0 : PatElem} {Q : List PatElem} {R : List Tok}
    {w0 f : List Char} {P' : List PatElem}
    (hR : R.head? = some (Tok.word w0))
    (hCm : lowerList w0 ∉ patWords (PatElem.pword f :: P'))
    (hCs : ∀ cs, Tok.word cs ∈ R → lowerList cs ≠ f) :
    ∀ (ts : List Tok),
      (occursB (PatElem.pword f :: P') ts = false ∨
        (PatElem.pword f :: P' : List PatElem) = q0 :: Q) →
      occursB (PatElem.pword f :: P') (goTok q0 Q R ts) = false := by
  have main : ∀ (n : Nat) (ts : List Tok), ts.length ≤ n →
      (occursB (PatElem.pword f :: P') ts = false ∨
        (PatElem.pword f :: P' : List PatElem) = q0 :: Q) →
      occursB (PatElem.pword f :: P') (goTok q0 Q R ts) = false := by
    intro n
    induction n with
    | zero =>
      intro ts hlen _
      have : ts = [] := List.length_eq_zero.mp (Nat.le_zero.mp hlen)
      subst this
      rw [goTok_nil, occursB_nil, matchAtB_cons_nil]
    | succ n ih =>
      intro ts hlen hdisj
      cases ts with
      | nil => rw [goTok_nil, occursB_nil, matchAtB_cons_nil]
      | cons t ts =>
        cases hm : tryMatch (q0 :: Q) (t :: ts) with
        | some rest =>
          rw [goTok_cons_of_match R hm]
          have hrest : rest = (t :: ts).drop (Q.length + 1) := by
            simpa using tryMatch_some_drop (q0 :: Q) (t :: ts) rest hm
          have hlrest : rest.length ≤ n := by
            rw [hrest]
            simp only [List.length_drop, List.length_cons]
            simp only [List.length_cons] at hlen
            omega
          have hdisj2 : occursB (PatElem.pword f :: P') rest = false ∨
              (PatElem.pword f :: P' : List PatElem) = q0 :: Q := by
            cases hdisj with
            | inl hno =>
              left
              by_contra hocc
              rw [Bool.not_eq_false] at hocc
              rw [hrest] at hocc
              rw [occursB_drop _ _ hocc] at hno
              cases hno
            | inr heq => exact Or.inr heq
          have hrec := ih rest hlrest hdisj2
          by_contra hocc
          rw [Bool.not_eq_false] at hocc
          rw [occursB_chunk_start R hCs hocc] at hrec
          cases hrec
        | none =>
          rw [goTok_cons_of_none R hm]
          rw [occursB_cons]
          have hrec : occursB (PatElem.pword f :: P') (goTok q0 Q R ts) = false := by
            apply ih ts (by simp only [List.length_cons] at hlen; omega)
            cases hdisj with
            | inl hno =>
              left
              rw [occursB_cons] at hno
              exact (Bool.or_eq_false_iff.mp hno).2
            | inr heq => exact Or.inr heq
          rw [hrec]
          have hhead : matchAtB (PatElem.pword f :: P') (t :: goTok q0 Q R ts) = false := by
            by_contra hmt
            rw [Bool.not_eq_false] at hmt
            have h2 : matchAtB (PatElem.pword f :: P') (t :: ts) = true := by
              have := @match_transfer q0 Q R w0 hR (t :: ts)
                (PatElem.pword f :: P') hCm
              rw [goTok_cons_of_none R hm] at this
              exact this hmt
            cases hdisj with
            | inl hno =>
              rw [occursB_cons, h2] at hno
              simp at hno
            | inr heq =>
              rw [heq] at h2
              rw [matchAtB, hm] at h2
              cases h2
          rw [hhead]
          rfl
  intro ts
  exact main ts.length ts (Nat.le_refl _)

/-! ## Theorems: tokenizer canonicalization -/

theorem all_takeWhile (p : Char → Bool) :
    ∀ (l : List Char), (l.takeWhile p).all p = true := by
  intro l
  induction l with
  | nil => rfl
  | cons c cs ih =>
    by_cases hc : p c
    · rw [List.takeWhile_cons_of_pos hc]
      simp [hc, ih]
    · rw [List.takeWhile_cons_of_neg hc]
      rfl

theorem wfToks_tail {t : Tok} {l : List Tok} (h : wfToks (t :: l) = true) :
    wfToks l = true := by
  rw [wfToks, Bool.and_eq_true] at h ⊢
  obtain ⟨h1, h2⟩ := h
  rw [List.all_cons, Bool.and_eq_true] at h1
  refine ⟨h1.2, ?_⟩
  cases l with
  | nil => rfl
  | cons u us =>
    rw [altOk, Bool.and_eq_true] at h2
    exact h2.2

theorem wfToks_head_good {t : Tok} {l : List Tok} (h : wfToks (t :: l) = true) :
    t.chars.isEmpty = false ∧ classOk t = true := by
  rw [wfToks, Bool.and_eq_true] at h
  obtain ⟨h1, _⟩ := h
  rw [List.all_cons, Bool.and_eq_true] at h1
  have := h1.1
  rw [Bool.and_eq_true] at this
  exact ⟨by simpa using this.1, this.2⟩

theorem wfToks_junction {t u : Tok} {us : List Tok}
    (h : wfToks (t :: u :: us) = true) : t.isWord ≠ u.isWord := by
  rw [wfToks, Bool.and_eq_true] at h
  have h2 := h.2
  rw [altOk, Bool.and_eq_true] at h2
  simpa using h2.1

theorem wfToks_cons {t : Tok} {l : List Tok}
    (h1 : t.chars.isEmpty = false) (h2 : classOk t = true)
    (h3 : wfToks l = true)
    (h4 : ∀ u us, l = u :: us → t.isWord ≠ u.isWord) :
    wfToks (t :: l) = true := by
  rw [wfToks, Bool.and_eq_true] at h3 ⊢
  constructor
  · rw [List.all_cons]
    simp only [Bool.and_eq_true]
    exact ⟨⟨by simp [h1], h2⟩, h3.1⟩
  · cases l with
    | nil => rfl
    | cons u us =>
      rw [altOk, Bool.and_eq_true]
      exact ⟨by simpa using h4 u us rfl, h3.2⟩

theorem isWordChar_of_classOk_word {cs : List Char} {c : Char}
    (h : classOk (Tok.word cs) = true) (hc : c ∈ cs) : isWordChar c = true := by
  rw [classOk] at h
  exact List.all_eq_true.mp h c hc

theorem isWordChar_of_classOk_sep {cs : List Char} {c : Char}
    (h : classOk (Tok.sep cs) = true) (hc : c ∈ cs) : isWordChar c = false := by
  rw [classOk] at h
  simpa using List.all_eq_true.mp h c hc

/-- The tokenizer always produces a well-formed token list. -/
theorem wfToks_tokenize (l : List Char) : wfToks (tokenize l) = true := by
  have main : ∀ (n : Nat) (l : List Char), l.length ≤ n → wfToks (tokenize l) = true := by
    intro n
    induction n with
    | zero =>
      intro l hl
      have : l = [] := List.length_eq_zero.mp (Nat.le_zero.mp hl)
      subst this
      rfl
    | succ n ih =>
      intro l hl
      cases l with
      | nil => rfl
      | cons c cs =>
        rw [tokenize_cons]
        have hdrop : (cs.dropWhile fun d => isWordChar d == isWordChar c).length ≤ n := by
          have h2 := length_dropWhile_le (fun d => isWordChar d == isWordChar c) cs
          simp only [List.length_cons] at hl
          omega
        have hrest := ih _ hdrop
        have hrun : ((c :: cs.takeWhile fun d => isWordChar d == isWordChar c)).all
            (fun d => isWordChar d == isWordChar c) = true := by
          rw [List.all_cons]
          simp only [Bool.and_eq_true]
          exact ⟨by simp, all_takeWhile _ _⟩
        have hjunct : ∀ u us,
            tokenize (cs.dropWhile fun d => isWordChar d == isWordChar c) = u :: us →
            (if isWordChar c then
                Tok.word (c :: cs.takeWhile fun d => isWordChar d == isWordChar c)
              else
                Tok.sep (c :: cs.takeWhile fun d => isWordChar d == isWordChar c)).isWord
              ≠ u.isWord := by
          intro u us hu
          cases hd : cs.dropWhile fun d => isWordChar d == isWordChar c with
          | nil => rw [hd, tokenize_nil] at hu; cases hu
          | cons d ds =>
            rw [hd] at hu
            have hde := dropWhile_head_false _ hd
            have hu2 := tokenize_head_isWord hu
            have hne : isWordChar d ≠ isWordChar c := by
              intro hcontra
              rw [hcontra] at hde
              simp at hde
            by_cases hw : isWordChar c
            · rw [if_pos hw]
              rw [hu2]
              simp only [Tok.isWord]
              intro hcontra
              exact hne (by rw [← hcontra, hw])
            · rw [if_neg hw]
              rw [hu2]
              simp only [Tok.isWord]
              intro hcontra
              apply hne
              rw [Bool.of_not_eq_true hw, ← hcontra]
        apply wfToks_cons _ _ hrest hjunct
        · by_cases hw : isWordChar c
          · rw [if_pos hw]; simp [Tok.chars]
          · rw [if_neg hw]; simp [Tok.chars]
        · by_cases hw : isWordChar c
          · rw [if_pos hw]
            rw [classOk, List.all_eq_true]
            intro d hd
            have := List.all_eq_true.mp hrun d hd
            rw [beq_iff_eq] at this
            rw [this, hw]
          · rw [if_neg hw]
            rw [classOk, List.all_eq_true]
            intro d hd
            have := List.all_eq_true.mp hrun d hd
            rw [beq_iff_eq] at this
            simp [this, Bool.of_not_eq_true hw]
  exact main l.length l (Nat.le_refl _)

theorem detok_nil : detok [] = [] := rfl

theorem detok_cons (t : Tok) (ts : List Tok) :
    detok (t :: ts) = t.chars ++ detok ts := by
  rw [detok, detok, List.map_cons, List.flatten_cons]

/-- Retokenizing a well-formed token list's characters recovers the list:
the canonicalization theorem connecting string-level and token-level
substitution. -/
theorem tokenize_detok : ∀ (ts : List Tok), wfToks ts = true →
    tokenize (detok ts) = ts := by
  intro ts
  induction ts with
  | nil => intro _; rfl
  | cons t ts ih =>
    intro hwf
    obtain ⟨hne, hcls⟩ := wfToks_head_good hwf
    rw [detok_cons]
    obtain ⟨c, cs', hchars⟩ : ∃ c cs', t.chars = c :: cs' := by
      cases hc : t.chars with
      | nil => rw [hc] at hne; simp at hne
      | cons c cs' => exact ⟨c, cs', rfl⟩
    rw [hchars]
    have hcw : isWordChar c = t.isWord := by
      cases t with
      | word ws =>
        simp only [Tok.chars] at hchars
        simp only [Tok.isWord]
        exact isWordChar_of_classOk_word hcls (by rw [hchars]; simp)
      | sep ws =>
        simp only [Tok.chars] at hchars
        simp only [Tok.isWord]
        exact isWordChar_of_classOk_sep hcls (by rw [hchars]; simp)
    have hcs' : cs'.all (fun d => isWordChar d == isWordChar c) = true := by
      rw [List.all_eq_true]
      intro d hd
      have hdclass : isWordChar d = t.isWord := by
        cases t with
        | word ws =>
          simp only [Tok.chars] at hchars
          simp only [Tok.isWord]
          exact isWordChar_of_classOk_word hcls (by rw [hchars]; simp [hd])
        | sep ws =>
          simp only [Tok.chars] at hchars
          simp only [Tok.isWord]
          exact isWordChar_of_classOk_sep hcls (by rw [hchars]; simp [hd])
      rw [beq_iff_eq, hdclass, hcw]
    have hheadrest : ∀ d, (detok ts).head? = some d →
        (isWordChar d == isWordChar c) = false := by
      intro d hd
      cases ts with
      | nil => simp [detok_nil] at hd
      | cons u us =>
        obtain ⟨hune, hucls⟩ := wfToks_head_good (wfToks_tail hwf)
        rw [detok_cons] at hd
        obtain ⟨d0, ds0, hu0⟩ : ∃ d0 ds0, u.chars = d0 :: ds0 := by
          cases hc : u.chars with
          | nil => rw [hc] at hune; simp at hune
          | cons d0 ds0 => exact ⟨d0, ds0, rfl⟩
        rw [hu0] at hd
        simp only [List.cons_append, List.head?_cons, Option.some.injEq] at hd
        have hdclass : isWordChar d0 = u.isWord := by
          cases u with
          | word ws =>
            simp only [Tok.chars] at hu0
            simp only [Tok.isWord]
            exact isWordChar_of_classOk_word hucls (by rw [hu0]; simp)
          | sep ws =>
            simp only [Tok.chars] at hu0
            simp only [Tok.isWord]
            exact isWordChar_of_classOk_sep hucls (by rw [hu0]; simp)
        have hjunct := wfToks_junction hwf
        rw [← hd]
        rw [beq_eq_false_iff_ne]
        rw [hdclass, hcw]
        exact fun hcontra => hjunct (hcontra ▸ rfl)
    rw [List.cons_append, tokenize_cons]
    have htake : (cs' ++ detok ts).takeWhile (fun d => isWordChar d == isWordChar c)
        = cs' := by
      rw [takeWhile_app _ hcs', takeWhile_eq_nil_of_head hheadrest, List.append_nil]
    have hdrop : (cs' ++ detok ts).dropWhile (fun d => isWordChar d == isWordChar c)
        = detok ts := by
      rw [dropWhile_app _ hcs', dropWhile_eq_self_of_head hheadrest]
    rw [htake, hdrop, ih (wfToks_tail hwf)]
    congr 1
    cases t with
    | word ws =>
      have : isWordChar c = true := by rw [hcw]; rfl
      rw [if_pos this]
      simp only [Tok.chars] at hchars
      rw [← hchars]
    | sep ws =>
      have : isWordChar c = false := by rw [hcw]; rfl
      rw [if_neg (by simp [this])]
      simp only [Tok.chars] at hchars
      rw [← hchars]

/-! ## Theorems: helper lemmas for the renderer claims -/

theorem replaceSub_not_contains {pat rep : List Char} :
    ∀ (l : List Char), containsSub pat l = false → replaceSub pat rep l = l := by
  intro l
  induction l with
  | nil => intro _; exact replaceSub_nil pat rep
  | cons c cs ih =>
    intro h
    rw [containsSub, Bool.or_eq_false_iff] at h
    rw [replaceSub_cons_neg rep (by simp [h.1]), ih h.2]

/-- The PDF story of `exporter.py` never contains a page break. -/
theorem build_pdf_story_no_pageBreak (resume_text : List Char) :
    ∀ e ∈ build_pdf_story resume_text, e ≠ StoryElem.pageBreak := by
  intro e he heq
  subst heq
  rw [build_pdf_story, List.mem_flatMap] at he
  obtain ⟨il, _, hmem⟩ := he
  dsimp only at hmem
  by_cases hemp : (pyStrip il.2).isEmpty
  · rw [if_pos hemp] at hmem
    simp at hmem
  · rw [if_neg hemp] at hmem
    cases hclass : classify_line (pyStrip il.2) il.1 <;>
      rw [hclass] at hmem <;> simp at hmem

/-! ## Claim theorems -/

/-- Claim C3: whenever DOCX or PDF serialization fails (the abstract
serializer returns `none`, modelling the caught exception), the fallback
path writes a plain text file whose content is byte-identical to the
input resume text. -/
theorem claim_C3 :
    ∀ (saveDocx : List DocxPar → List Char → Option FileWrite)
      (buildPdf : List StoryElem → List Char → Option FileWrite)
      (resume_text output_path : List Char),
      (saveDocx (build_docx_pars resume_text) output_path = none →
        (export_to_docx saveDocx resume_text output_path).content = resume_text) ∧
      (buildPdf (build_pdf_story resume_text) output_path = none →
        (export_to_pdf buildPdf resume_text output_path).content = resume_text) := by
  intro saveDocx buildPdf resume_text output_path
  constructor
  · intro h
    rw [export_to_docx, h]
    rfl
  · intro h
    rw [export_to_pdf, h]
    rfl

/-- Witness for C3 at a concrete input with an always-failing
serializer. -/
theorem claim_C3_witness :
    (export_to_docx (fun _ _ => none) ("RESUME TEXT".data) ("out.docx".data)).content
        = ("RESUME TEXT".data) ∧
      (export_to_pdf (fun _ _ => none) ("RESUME TEXT".data) ("out.pdf".data)).content
        = ("RESUME TEXT".data) :=
  ⟨(claim_C3 (fun _ _ => none) (fun _ _ => none) ("RESUME TEXT".data)
      ("out.docx".data)).1 rfl,
   (claim_C3 (fun _ _ => none) (fun _ _ => none) ("RESUME TEXT".data)
      ("out.pdf".data)).2 rfl⟩

/-- Claim C7 counterexample: for the requested path `resume.pdf`, the
fallback of `exporter.py` writes to `resume.txt`, not to the exact
original path. -/
theorem claim_C7_counterexample :
    (save_as_text_fallback ("RESUME TEXT".data) ("resume.pdf".data)).path ≠
        ("resume.pdf".data) ∧
      (save_as_text_fallback ("RESUME TEXT".data) ("resume.pdf".data)).path =
        ("resume.txt".data) := by
  constructor
  · decide
  · decide

/-- Claim C7 (amended): the fallback of `exporter.py` writes under the
requested path with every `.docx`/`.pdf` substring replaced by `.txt`
(the exact original path only when it contains neither substring), while
the fallback of `simple_exporter.py` additionally copies the text to the
exact original requested path. -/
theorem claim_C7_amended :
    ∀ (resume_text output_path fmt : List Char),
      (save_as_text_fallback resume_text output_path).path =
          replaceSub (".pdf".data) (".txt".data)
            (replaceSub (".docx".data) (".txt".data) output_path) ∧
        (containsSub (".docx".data) output_path = false →
          containsSub (".pdf".data) output_path = false →
          (save_as_text_fallback resume_text output_path).path = output_path) ∧
        FileWrite.mk output_path resume_text ∈
          simple_save_as_text_fallback resume_text output_path fmt := by
  intro resume_text output_path fmt
  refine ⟨rfl, ?_, ?_⟩
  · intro h1 h2
    rw [save_as_text_fallback]
    rw [replaceSub_not_contains output_path h1, replaceSub_not_contains output_path h2]
  · rw [simple_save_as_text_fallback]
    simp

/-- Witness for C7 (amended) at a concrete extension-free path. -/
theorem claim_C7_witness :
    (save_as_text_fallback ("RESUME TEXT".data) ("outfile".data)).path
        = ("outfile".data) ∧
      FileWrite.mk ("outfile".data) ("RESUME TEXT".data) ∈
        simple_save_as_text_fallback ("RESUME TEXT".data) ("outfile".data)
          ("pdf".data) :=
  ⟨((claim_C7_amended ("RESUME TEXT".data) ("outfile".data) ("pdf".data)).2.1
      (by decide) (by decide)),
   (claim_C7_amended ("RESUME TEXT".data) ("outfile".data) ("pdf".data)).2.2⟩

set_option maxHeartbeats 1000000 in
/-- Claim C9: the record threaded through every section builder comes
back unchanged (the source only performs `dict.get` reads), and the
threaded run computes the same resume text. -/
theorem claim_C9 :
    ∀ (d : ResumeData) (style : List Char),
      (generate_resume_tracked d style).2 = d ∧
      (generate_resume_tracked d style).1 = generate_resume d style := by
  intro d style
  constructor
  · rfl
  · simp only [generate_resume_tracked, generate_resume, assemble_sections]

/-- Claim C10: the assembled resume text is independent of the style
argument, for both the production builder and the simple-builder
wrapper (the source uses `style` only in log messages). -/
theorem claim_C10 :
    ∀ (d : ResumeData) (s1 s2 : List Char),
      generate_resume d s1 = generate_resume d s2 ∧
      simple_generate_resume d s1 = simple_generate_resume d s2 := by
  intro d s1 s2
  exact ⟨rfl, rfl⟩

set_option maxRecDepth 20000 in
/-- Claim C8 counterexample: on a document whose section holds 27
rendered lines, the cited PDF path (`exporter.py`) emits no page break at
all, while the sibling `simple_exporter.py` PDF path does emit one at the
next section header. -/
theorem claim_C8_counterexample :
    (build_pdf_story longSectionDoc).contains StoryElem.pageBreak = false ∧
      (build_simple_pdf_story longSectionDoc).contains StoryElem.pageBreak = true := by
  constructor
  · decide
  · decide

set_option maxRecDepth 20000 in
/-- Claim C8 (amended): the PDF path of `exporter.py` applies only the
fixed per-line-type paragraph-style mapping and never forces a page
break, for any input document (pagination is left to the PDF engine);
the `more than 25 rendered lines per section` page-break rule exists
only in `simple_exporter.export_to_pdf`, where the break is emitted when
the next section header is reached. -/
theorem claim_C8_amended :
    (∀ resume_text : List Char,
        (build_pdf_story resume_text).contains StoryElem.pageBreak = false) ∧
      (build_simple_pdf_story longSectionDoc).contains StoryElem.pageBreak = true := by
  constructor
  · intro resume_text
    have h := build_pdf_story_no_pageBreak resume_text
    simp only [List.contains, List.elem_eq_mem, decide_eq_false_iff_not]
    intro hmem
    exact h _ hmem rfl
  · decide

/-! ## Theorems: the quantification step (claims C4, C5) -/

theorem digitPrefixLen_eq_zero {l : List Char}
    (h : ∀ c ∈ l, c.isDigit = false) : digitPrefixLen l = 0 := by
  cases l with
  | nil => rfl
  | cons c cs =>
    rw [digitPrefixLen, List.takeWhile_cons_of_neg (by simp [h c (by simp)])]
    rfl

theorem matchDigitsThen_none {suffix l : List Char}
    (h : ∀ c ∈ l, c.isDigit = false) : matchDigitsThen suffix l = none := by
  rw [matchDigitsThen]
  simp [digitPrefixLen_eq_zero h]

theorem matchDollar_none {l : List Char}
    (h : ∀ c ∈ l, c.isDigit = false) : matchDollar l = none := by
  cases l with
  | nil => rfl
  | cons c0 rest =>
    rw [matchDollar]
    by_cases hc : (c0 == '$') = true
    · rw [if_pos hc]
      have hz : digitPrefixLen rest = 0 :=
        digitPrefixLen_eq_zero fun c hc2 => h c (List.mem_cons_of_mem _ hc2)
      simp [hz]
    · rw [if_neg hc]

theorem matchDigitsKMB_none {l : List Char}
    (h : ∀ c ∈ l, c.isDigit = false) : matchDigitsKMB l = none := by
  rw [matchDigitsKMB]
  simp [digitPrefixLen_eq_zero h]

theorem matchRatio_none {l : List Char}
    (h : ∀ c ∈ l, c.isDigit = false) : matchRatio l = none := by
  rw [matchRatio]
  simp [digitPrefixLen_eq_zero h]

theorem matchDecimal_none {l : List Char}
    (h : ∀ c ∈ l, c.isDigit = false) : matchDecimal l = none := by
  rw [matchDecimal]
  simp [digitPrefixLen_eq_zero h]

theorem matchGrouped_none {l : List Char}
    (h : ∀ c ∈ l, c.isDigit = false) : matchGrouped l = none := by
  rw [matchGrouped]
  simp [digitPrefixLen_eq_zero h]

theorem finditerF_nil {m : List Char → Option Nat}
    (hm : ∀ l, (∀ c ∈ l, c.isDigit = false) → m l = none) :
    ∀ (n pos : Nat) (l : List Char), (∀ c ∈ l, c.isDigit = false) →
      finditerF m n pos l = [] := by
  intro n
  induction n with
  | zero =>
    intro pos l h
    cases l <;> rfl
  | succ n ih =>
    intro pos l h
    cases l with
    | nil => rfl
    | cons c cs =>
      rw [finditerF, hm _ h]
      exact ih (pos + 1) cs fun d hd => h d (by simp [hd])

theorem finditer_nil {m : List Char → Option Nat} {s : List Char}
    (hm : ∀ l, (∀ c ∈ l, c.isDigit = false) → m l = none)
    (h : ∀ c ∈ s, c.isDigit = false) : finditer m s = [] :=
  finditerF_nil hm s.length 0 s h

/-- With no digit anywhere, every one of the eight numeric patterns of
`extract_quantified_achievements` has no match. -/
theorem extract_achievements_empty {s : List Char}
    (h : hasNumericPattern s = false) : extract_quantified_achievements s = [] := by
  have hall : ∀ c ∈ s, c.isDigit = false := by
    intro c hc
    by_contra hd
    rw [Bool.not_eq_false] at hd
    have h2 : (s.any fun c => c.isDigit) = true := List.any_eq_true.mpr ⟨c, hc, hd⟩
    rw [hasNumericPattern] at h
    rw [h] at h2
    cases h2
  have e1 : finditer (matchDigitsThen ("%".data)) s = [] :=
    finditer_nil (fun _ hl => matchDigitsThen_none hl) hall
  have e2 : finditer (matchDigitsThen ("+".data)) s = [] :=
    finditer_nil (fun _ hl => matchDigitsThen_none hl) hall
  have e3 : finditer matchDollar s = [] :=
    finditer_nil (fun _ hl => matchDollar_none hl) hall
  have e4 : finditer matchDigitsKMB s = [] :=
    finditer_nil (fun _ hl => matchDigitsKMB_none hl) hall
  have e5 : finditer (matchDigitsThen ("x".data)) s = [] :=
    finditer_nil (fun _ hl => matchDigitsThen_none hl) hall
  have e6 : finditer matchRatio s = [] :=
    finditer_nil (fun _ hl => matchRatio_none hl) hall
  have e7 : finditer matchDecimal s = [] :=
    finditer_nil (fun _ hl => matchDecimal_none hl) hall
  have e8 : finditer matchGrouped s = [] :=
    finditer_nil (fun _ hl => matchGrouped_none hl) hall
  rw [extract_quantified_achievements]
  simp only [List.flatMap_cons, List.flatMap_nil, List.append_nil, e1, e2, e3, e4,
    e5, e6, e7, e8, List.map_nil, List.nil_append]

/-- Claim C4 counterexample: a digit-free sentence that mentions
`speed` and an `improv` verb but contains an interior period.  The claim
predicts a single insertion before the final period; the code's
`str.replace` rewrites every period. -/
theorem claim_C4_counterexample :
    hasNumericPattern ("Improved speed of the node.js pipeline.".data) = false ∧
      containsSub ("speed".data)
        (lowerList ("Improved speed of the node.js pipeline.".data)) = true ∧
      containsSub ("improv".data)
        (lowerList ("Improved speed of the node.js pipeline.".data)) = true ∧
      add_quantification ("Improved speed of the node.js pipeline.".data) ≠
        ("Improved speed of the node.js pipeline, improving performance by 25%.".data) ∧
      add_quantification ("Improved speed of the node.js pipeline.".data) =
        ("Improved speed of the node, improving performance by 25%.js pipeline, improving performance by 25%.".data) := by
  refine ⟨by decide, by decide, by decide, by decide, by decide⟩

/-- Claim C4 (amended): for a digit-free sentence (hence with no
quantified-achievement match), `_add_quantification` replaces EVERY
period with the canned category phrase — `', improving performance by
25%.'` for the performance/speed category, and analogously for the
cost, time and user-satisfaction categories, selected by an `elif`
chain so at most one category applies.  When the sentence's only period
is final, this appends the phrase before it. -/
theorem claim_C4_amended :
    ∀ s : List Char, hasNumericPattern s = false →
      ((containsSub ("performance".data) (lowerList s) ||
          containsSub ("speed".data) (lowerList s)) = true →
        (containsSub ("improv".data) (lowerList s) ||
          containsSub ("optim".data) (lowerList s)) = true →
        add_quantification s =
          replaceSub (".".data) (", improving performance by 25%.".data) s) ∧
      ((containsSub ("performance".data) (lowerList s) ||
          containsSub ("speed".data) (lowerList s)) = false →
        (containsSub ("cost".data) (lowerList s) ||
          containsSub ("expense".data) (lowerList s)) = true →
        (containsSub ("reduc".data) (lowerList s) ||
          containsSub ("sav".data) (lowerList s)) = true →
        add_quantification s =
          replaceSub (".".data) (", reducing costs by 20%.".data) s) ∧
      ((containsSub ("performance".data) (lowerList s) ||
          containsSub ("speed".data) (lowerList s)) = false →
        (containsSub ("cost".data) (lowerList s) ||
          containsSub ("expense".data) (lowerList s)) = false →
        containsSub ("time".data) (lowerList s) = true →
        (containsSub ("reduc".data) (lowerList s) ||
          containsSub ("sav".data) (lowerList s)) = true →
        add_quantification s =
          replaceSub (".".data) (", saving 15 hours per week.".data) s) ∧
      ((containsSub ("performance".data) (lowerList s) ||
          containsSub ("speed".data) (lowerList s)) = false →
        (containsSub ("cost".data) (lowerList s) ||
          containsSub ("expense".data) (lowerList s)) = false →
        containsSub ("time".data) (lowerList s) = false →
        (containsSub ("user".data) (lowerList s) ||
          containsSub ("customer".data) (lowerList s)) = true →
        (containsSub ("improv".data) (lowerList s) ||
          containsSub ("enhanc".data) (lowerList s)) = true →
        add_quantification s =
          replaceSub (".".data) (", improving user satisfaction by 30%.".data) s) := by
  intro s h0
  have hach := extract_achievements_empty h0
  refine ⟨?_, ?_, ?_, ?_⟩
  · intro h1 h2
    rw [add_quantification]
    simp only [h0, hach, h1, h2]
    rfl
  · intro h1 h2 h3
    rw [add_quantification]
    simp only [h0, hach, h1, h2, h3]
    rfl
  · intro h1 h2 h3 h4
    rw [add_quantification]
    simp only [h0, hach, h1, h2, h3, h4]
    rfl
  · intro h1 h2 h3 h4 h5
    rw [add_quantification]
    simp only [h0, hach, h1, h2, h3, h4, h5]
    rfl

/-- Witness for C4 (amended) on a single-period performance sentence. -/
theorem claim_C4_witness :
    add_quantification ("Improved system speed.".data) =
      replaceSub (".".data) (", improving performance by 25%.".data)
        ("Improved system speed.".data) :=
  (claim_C4_amended ("Improved system speed.".data) (by decide)).1
    (by decide) (by decide)

/-! ## Theorems: digit preservation through the bullet pipeline (claim C5) -/

theorem digit_toLower {c : Char} (h : c.isDigit = true) : c.toLower = c := by
  simp only [Char.isDigit, Bool.and_eq_true, decide_eq_true_eq] at h
  obtain ⟨_, h2⟩ := h
  rw [Char.toLower, if_neg]
  intro hcon
  obtain ⟨h65, _⟩ := hcon
  have hle : c.toNat ≤ 57 := BitVec.le_def.mp h2
  omega

theorem digit_not_space {c : Char} (h : c.isDigit = true) :
    isSpaceChar c = false := by
  rw [isSpaceChar]
  by_contra hs
  rw [Bool.not_eq_false] at hs
  simp only [Bool.or_eq_true, beq_iff_eq] at hs
  rcases hs with ((((rfl | rfl) | rfl) | rfl) | rfl) | rfl <;>
    exact absurd h (by decide)

theorem mem_dropWhile_of_mem {p : Char → Bool} {d : Char} :
    ∀ {l : List Char}, d ∈ l → p d = false → d ∈ l.dropWhile p := by
  intro l
  induction l with
  | nil => intro h _; exact absurd h (List.not_mem_nil d)
  | cons c cs ih =>
    intro h hpd
    by_cases hc : p c = true
    · rw [List.dropWhile_cons, if_pos hc]
      rcases List.mem_cons.mp h with rfl | hm
      · simp [hpd] at hc
      · exact ih hm hpd
    · rw [List.dropWhile_cons, if_neg hc]
      exact h

theorem mem_pyStrip {d : Char} {l : List Char} (h : d ∈ l)
    (hd : isSpaceChar d = false) : d ∈ pyStrip l := by
  rw [pyStrip, dropTrail]
  have h1 : d ∈ l.dropWhile isSpaceChar := mem_dropWhile_of_mem h hd
  have h2 : d ∈ (l.dropWhile isSpaceChar).reverse := List.mem_reverse.mpr h1
  exact List.mem_reverse.mpr (mem_dropWhile_of_mem h2 hd)

theorem mem_stripBulletMarker {d : Char} {l : List Char} (h : d ∈ l)
    (hd : d.isDigit = true) : d ∈ stripBulletMarker l := by
  cases l with
  | nil => exact absurd h (List.not_mem_nil d)
  | cons c cs =>
    rw [stripBulletMarker]
    by_cases hb : (c == '•' || c == '-' || c == '*') = true
    · rw [if_pos hb]
      rcases List.mem_cons.mp h with rfl | hm
      · simp only [Bool.or_eq_true, beq_iff_eq] at hb
        rcases hb with (rfl | rfl) | rfl <;> exact absurd hd (by decide)
      · exact mem_dropWhile_of_mem hm (digit_not_space hd)
    · rw [if_neg hb]
      exact h

theorem detok_append (a b : List Tok) :
    detok (a ++ b) = detok a ++ detok b := by
  rw [detok, detok, detok, List.map_append, List.flatten_append]

theorem detok_tokenizeF :
    ∀ (n : Nat) (l : List Char), l.length ≤ n → detok (tokenizeF n l) = l := by
  intro n
  induction n with
  | zero =>
    intro l hl
    cases l with
    | nil => rfl
    | cons c cs => simp at hl
  | succ n ih =>
    intro l hl
    cases l with
    | nil => rfl
    | cons c cs =>
      rw [tokenizeF]
      have hlen : (cs.dropWhile fun d => isWordChar d == isWordChar c).length ≤ n := by
        have h1 := length_dropWhile_le (fun d => isWordChar d == isWordChar c) cs
        simp only [List.length_cons] at hl
        omega
      by_cases hw : isWordChar c = true
      · rw [if_pos hw, detok_cons, ih _ hlen]
        simp only [Tok.chars]
        rw [List.cons_append, List.takeWhile_append_dropWhile]
      · rw [if_neg hw, detok_cons, ih _ hlen]
        simp only [Tok.chars]
        rw [List.cons_append, List.takeWhile_append_dropWhile]

/-- Retokenizing and reassembling any character list is the identity:
the inverse direction of the canonicalization theorem. -/
theorem detok_tokenize (l : List Char) : detok (tokenize l) = l :=
  detok_tokenizeF l.length l (Nat.le_refl _)

/-- A digit in the token list survives a successful pattern match when no
pattern word contains a digit: the consumed prefix is digit-free. -/
theorem tryMatch_digit {d : Char} (hd : d.isDigit = true) :
    ∀ (P : List PatElem) (l rest : List Tok),
      tryMatch P l = some rest →
      (∀ w ∈ patWords P, ∀ c ∈ w, c.isDigit = false) →
      d ∈ detok l → d ∈ detok rest := by
  intro P
  induction P with
  | nil =>
    intro l rest h _ hm
    rw [tryMatch] at h
    cases h
    exact hm
  | cons p ps ih =>
    intro l rest h hdf hm
    cases l with
    | nil => rw [tryMatch] at h; cases h
    | cons t ts =>
      by_cases hmt : matchTok p t = true
      · rw [tryMatch_cons_pos hmt] at h
        rw [detok_cons] at hm
        rcases List.mem_append.mp hm with hml | hmr
        · exfalso
          cases p with
          | pword w =>
            cases t with
            | word cs =>
              rw [matchTok] at hmt
              have hw : lowerList cs = w := by simpa using hmt
              have hdw : d ∈ w := by
                rw [← hw, lowerList]
                have hdc : d ∈ cs := hml
                have h2 := List.mem_map_of_mem Char.toLower hdc
                rwa [digit_toLower hd] at h2
              have hwmem : w ∈ patWords (PatElem.pword w :: ps) := by
                simp [patWords, List.filterMap_cons]
              have hcon := hdf w hwmem d hdw
              rw [hd] at hcon
              exact Bool.noConfusion hcon
            | sep cs => rw [matchTok] at hmt; exact Bool.noConfusion hmt
          | psep =>
            cases t with
            | word cs => rw [matchTok] at hmt; exact Bool.noConfusion hmt
            | sep cs =>
              rw [matchTok] at hmt
              have hcs : cs = [' '] := by simpa using hmt
              subst hcs
              have hds : d = ' ' := by simpa [Tok.chars] using hml
              subst hds
              exact absurd hd (by decide)
        · exact ih ts rest h (fun w hw => hdf w (mem_patWords_cons p hw)) hmr
      · rw [tryMatch_cons_neg hmt] at h; cases h

/-- A digit survives the whole word-boundary substitution scan when no
pattern word contains a digit. -/
theorem goTok_digit {d : Char} (hd : d.isDigit = true) (q0 : PatElem)
    (Q : List PatElem) (R : List Tok)
    (hdf : ∀ w ∈ patWords (q0 :: Q), ∀ c ∈ w, c.isDigit = false) :
    ∀ (n : Nat) (ts : List Tok), ts.length ≤ n →
      d ∈ detok ts → d ∈ detok (goTok q0 Q R ts) := by
  intro n
  induction n with
  | zero =>
    intro ts hn hm
    have hts : ts = [] := List.length_eq_zero.mp (Nat.le_zero.mp hn)
    subst hts
    rw [goTok_nil]
    exact hm
  | succ n ih =>
    intro ts hn hm
    cases ts with
    | nil => rw [goTok_nil]; exact hm
    | cons t ts =>
      cases hmt : tryMatch (q0 :: Q) (t :: ts) with
      | some rest =>
        rw [goTok_cons_of_match R hmt, detok_append]
        have hrest : rest.length ≤ ts.length := by
          rw [tryMatch] at hmt
          by_cases hq : matchTok q0 t = true
          · rw [if_pos hq] at hmt
            exact tryMatch_length Q ts rest hmt
          · rw [if_neg hq] at hmt; cases hmt
        have hm2 : d ∈ detok rest := tryMatch_digit hd (q0 :: Q) (t :: ts) rest hmt hdf hm
        have hm3 := ih rest (by simp only [List.length_cons] at hn; omega) hm2
        exact List.mem_append_right _ hm3
      | none =>
        rw [goTok_cons_of_none R hmt]
        rw [detok_cons] at hm ⊢
        rcases List.mem_append.mp hm with h1 | h2
        · exact List.mem_append_left _ h1
        · exact List.mem_append_right _
            (ih ts (by simp only [List.length_cons] at hn; omega) h2)

/-- A digit survives one table-entry substitution when the weak phrase
contains no digit. -/
theorem subWordBound_digit {d : Char} (hd : d.isDigit = true)
    (weak strong : List Char) {s : List Char}
    (hdf : ∀ w ∈ patWords (patElems weak), ∀ c ∈ w, c.isDigit = false)
    (hm : d ∈ s) : d ∈ subWordBound weak strong s := by
  rw [subWordBound]
  cases hpe : patElems weak with
  | nil => exact hm
  | cons p ps =>
    rw [hpe] at hdf
    have hm2 : d ∈ detok (tokenize s) := by
      rw [detok_tokenize]; exact hm
    exact goTok_digit hd p ps (tokenize strong) hdf (tokenize s).length
      (tokenize s) (Nat.le_refl _) hm2

theorem foldl_subWordBound_digit {d : Char} (hd : d.isDigit = true) :
    ∀ (tbl : List (List Char × List Char)) (s : List Char),
      (∀ wr ∈ tbl, ∀ w ∈ patWords (patElems wr.1), ∀ c ∈ w, c.isDigit = false) →
      d ∈ s → d ∈ tbl.foldl (fun acc wr => subWordBound wr.1 wr.2 acc) s := by
  intro tbl
  induction tbl with
  | nil => intro s _ hm; exact hm
  | cons wr tl ih =>
    intro s hdf hm
    rw [List.foldl_cons]
    exact ih _ (fun x hx => hdf x (List.mem_cons_of_mem _ hx))
      (subWordBound_digit hd wr.1 wr.2 (hdf wr (List.mem_cons_self _ _)) hm)

/-- No phrase in the verb transformation table contains a digit, so a
digit survives the whole substitution loop. -/
theorem applyVerbTransformations_digit {d : Char} {s : List Char}
    (hd : d.isDigit = true) (hm : d ∈ s) :
    d ∈ applyVerbTransformations s := by
  rw [applyVerbTransformations]
  exact foldl_subWordBound_digit hd verb_transformations s (by decide) hm

/-- `_ensure_strong_start` only ever prepends a prefix, so it preserves
membership of every character. -/
theorem mem_ensure_strong_start {d : Char} {s : List Char} (h : d ∈ s) :
    d ∈ ensure_strong_start s := by
  rw [ensure_strong_start]
  dsimp only
  repeat' split
  all_goals first
    | exact h
    | exact List.mem_append_right _ h

theorem startsWithCI_digit_drop {d : Char} (hd : d.isDigit = true) :
    ∀ (pat l : List Char), startsWithCI pat l = true →
      (∀ c ∈ pat, c.isDigit = false) → d ∈ l → d ∈ l.drop pat.length := by
  intro pat
  induction pat with
  | nil => intro l _ _ hm; simpa using hm
  | cons p ps ih =>
    intro l hst hdf hm
    cases l with
    | nil => rw [startsWithCI] at hst; cases hst
    | cons c cs =>
      rw [startsWithCI, Bool.and_eq_true] at hst
      obtain ⟨hp, hrest⟩ := hst
      rcases List.mem_cons.mp hm with rfl | hm2
      · exfalso
        have hpd : p = d := by
          rw [beq_iff_eq.mp hp]
          exact digit_toLower hd
        have hcon := hdf p (List.mem_cons_self _ _)
        rw [hpd, hd] at hcon
        exact Bool.noConfusion hcon
      · have hres := ih cs hrest (fun x hx => hdf x (List.mem_cons_of_mem _ hx)) hm2
        simpa using hres

/-- A digit survives one passive-voice rewrite pass when the auxiliary
pattern contains no digit: only the digit-free auxiliary and the space
after it are deleted. -/
theorem scanActiveF_digit {d : Char} (hd : d.isDigit = true) (aux : List Char)
    (hdf : ∀ c ∈ aux, c.isDigit = false) :
    ∀ (n : Nat) (l : List Char), d ∈ l → d ∈ scanActiveF aux n l := by
  intro n
  induction n with
  | zero =>
    intro l hm
    cases l with
    | nil => exact hm
    | cons c cs => exact hm
  | succ n ih =>
    intro l hm
    cases l with
    | nil => exact hm
    | cons c cs =>
      rw [scanActiveF]
      by_cases hst : startsWithCI (aux ++ [' ']) (c :: cs) = true
      · rw [if_pos hst]
        have hpatdf : ∀ x ∈ aux ++ [' '], x.isDigit = false := by
          intro x hx
          rcases List.mem_append.mp hx with h1 | h2
          · exact hdf x h1
          · have hxs : x = ' ' := by simpa using h2
            subst hxs
            decide
        have hafter : d ∈ (c :: cs).drop (aux.length + 1) := by
          have hdrop := startsWithCI_digit_drop hd (aux ++ [' ']) (c :: cs) hst hpatdf hm
          simpa using hdrop
        dsimp only
        cases hep : edPrefixLen (((c :: cs).drop (aux.length + 1)).takeWhile isWordChar) with
        | some k =>
          have hsplit : d ∈ ((c :: cs).drop (aux.length + 1)).take k ++
              ((c :: cs).drop (aux.length + 1)).drop k := by
            rw [List.take_append_drop]
            exact hafter
          rcases List.mem_append.mp hsplit with h1 | h2
          · exact List.mem_append_left _ h1
          · exact List.mem_append_right _ (ih _ h2)
        | none =>
          rcases List.mem_cons.mp hm with rfl | hm2
          · exact List.mem_cons_self _ _
          · exact List.mem_cons_of_mem _ (ih _ hm2)
      · rw [if_neg hst]
        rcases List.mem_cons.mp hm with rfl | hm2
        · exact List.mem_cons_self _ _
        · exact List.mem_cons_of_mem _ (ih _ hm2)

theorem scanActive_digit {d : Char} (hd : d.isDigit = true) {aux l : List Char}
    (hdf : ∀ c ∈ aux, c.isDigit = false) (hm : d ∈ l) :
    d ∈ scanActive aux l := by
  rw [scanActive]
  exact scanActiveF_digit hd aux hdf l.length l hm

theorem foldl_scanActive_digit {d : Char} (hd : d.isDigit = true) :
    ∀ (auxs : List (List Char)) (s : List Char),
      (∀ a ∈ auxs, ∀ c ∈ a, c.isDigit = false) → d ∈ s →
      d ∈ auxs.foldl (fun acc a => scanActive a acc) s := by
  intro auxs
  induction auxs with
  | nil => intro s _ hm; exact hm
  | cons a tl ih =>
    intro s hdf hm
    rw [List.foldl_cons]
    exact ih _ (fun x hx => hdf x (List.mem_cons_of_mem _ hx))
      (scanActive_digit hd (hdf a (List.mem_cons_self _ _)) hm)

/-- None of the six passive-voice auxiliaries contains a digit, so a
digit survives the passive-to-active pass. -/
theorem convert_to_active_voice_digit {d : Char} {s : List Char}
    (hd : d.isDigit = true) (hm : d ∈ s) :
    d ∈ convert_to_active_voice s := by
  rw [convert_to_active_voice]
  exact foldl_scanActive_digit hd _ s (by decide) hm

/-- Claim C5: for a sentence that already contains a numeric pattern (the
source's search regex `\d+[%kmb]?|\$\d+|\d+x|\d+:\d+` succeeds exactly
when a digit is present, since its first alternative's suffix is
optional), `_add_quantification` is the identity, and the bullet pipeline
degenerates to strip, weak-verb substitution, strong-start,
passive-to-active and final capitalization/punctuation, with the
quantification step dropped.  The digit survives every earlier pipeline
stage, so the identity holds at the point where the source applies it. -/
theorem claim_C5 (s : List Char) (h : hasNumericPattern s = true) :
    add_quantification s = s ∧
      transform_to_bullet s =
        finalize_bullet (convert_to_active_voice (ensure_strong_start
          (applyVerbTransformations (stripBulletMarker (pyStrip s))))) := by
  obtain ⟨d, hdm, hdd⟩ := List.any_eq_true.mp h
  constructor
  · rw [add_quantification, if_pos h]
  · have h1 : d ∈ pyStrip s := mem_pyStrip hdm (digit_not_space hdd)
    have h2 : d ∈ stripBulletMarker (pyStrip s) := mem_stripBulletMarker h1 hdd
    have h3 : d ∈ applyVerbTransformations (stripBulletMarker (pyStrip s)) :=
      applyVerbTransformations_digit hdd h2
    have h4 := mem_ensure_strong_start h3
    have h5 := convert_to_active_voice_digit hdd h4
    have hX : hasNumericPattern
        (convert_to_active_voice (ensure_strong_start
          (applyVerbTransformations (stripBulletMarker (pyStrip s))))) = true :=
      List.any_eq_true.mpr ⟨d, h5, hdd⟩
    have hne : (pyStrip s).isEmpty = false := by
      cases hps : pyStrip s with
      | nil => rw [hps] at h1; exact absurd h1 (List.not_mem_nil d)
      | cons c cs => rfl
    rw [transform_to_bullet]
    rw [if_neg (by simp [hne])]
    rw [add_quantification, if_pos hX]

/-! ## Theorems: header and assembly structure (claim C1) -/

theorem sp_toUpper {c : Char} (hc : isSpaceChar c = false) :
    isSpaceChar c.toUpper = false := by
  rw [Char.toUpper]
  by_cases h : c.toNat ≥ 97 ∧ c.toNat ≤ 122
  · rw [if_pos h]
    obtain ⟨h1, h2⟩ := h
    generalize hn : c.toNat = n at h1 h2 ⊢
    interval_cases n <;> decide
  · rw [if_neg h]
    exact hc

theorem dropWhile_append' {p : Char → Bool} :
    ∀ (a b : List Char), (a ++ b).dropWhile p =
      if (a.dropWhile p).isEmpty = true then b.dropWhile p else a.dropWhile p ++ b := by
  intro a b
  induction a with
  | nil => simp
  | cons c cs ih =>
    by_cases hc : p c = true
    · rw [List.cons_append, List.dropWhile_cons, if_pos hc, ih, List.dropWhile_cons,
        if_pos hc]
    · rw [List.cons_append, List.dropWhile_cons, if_neg hc, List.dropWhile_cons,
        if_neg hc]
      simp

theorem dropTrail_append (a t : List Char) :
    dropTrail (a ++ t) =
      if (dropTrail t).isEmpty = true then dropTrail a else a ++ dropTrail t := by
  simp only [dropTrail, List.reverse_append, dropWhile_append']
  by_cases h : (t.reverse.dropWhile isSpaceChar).isEmpty = true
  · rw [if_pos h]
    have h2 : ((t.reverse.dropWhile isSpaceChar).reverse).isEmpty = true := by
      cases hx : t.reverse.dropWhile isSpaceChar with
      | nil => rfl
      | cons b bs => rw [hx] at h; simp at h
    rw [if_pos h2]
  · rw [if_neg h]
    have h2 : ((t.reverse.dropWhile isSpaceChar).reverse).isEmpty = false := by
      cases hx : t.reverse.dropWhile isSpaceChar with
      | nil => exact absurd (by rw [hx]; rfl) h
      | cons b bs => simp
    rw [if_neg (by simp [h2]), List.reverse_append, List.reverse_reverse]

theorem dropTrail_prefix (y : List Char) :
    y = dropTrail y ++ (y.reverse.takeWhile isSpaceChar).reverse := by
  rw [dropTrail, ← List.reverse_append, List.takeWhile_append_dropWhile,
    List.reverse_reverse]

theorem dropTrail_head {y : List Char} {c : Char} {cs : List Char}
    (h : dropTrail y = c :: cs) : y.head? = some c := by
  have hy := dropTrail_prefix y
  rw [h] at hy
  rw [hy, List.cons_append]
  rfl

theorem pyStrip_head_not_space {l : List Char} {c : Char} {cs : List Char}
    (h : pyStrip l = c :: cs) : isSpaceChar c = false := by
  rw [pyStrip] at h
  have h2 := dropTrail_head h
  cases hx : l.dropWhile isSpaceChar with
  | nil => rw [hx] at h2; cases h2
  | cons a as =>
    rw [hx] at h2
    have hac : a = c := by simpa using h2
    subst hac
    exact dropWhile_head_false l hx

theorem pyTitle_cons (c : Char) (cs : List Char) :
    pyTitle (c :: cs) =
      (if c.isAlpha then c.toUpper else c) :: pyTitleGo c.isAlpha cs := rfl

theorem joinWith_cons (sepr x : List Char) (xs : List (List Char)) :
    joinWith sepr (x :: xs) = x ++ xs.flatMap fun y => sepr ++ y := rfl

theorem flatMap_sep_shape :
    ∀ xs : List (List Char), (xs.flatMap fun y => ("\n".data) ++ y) = [] ∨
      ∃ t, (xs.flatMap fun y => ("\n".data) ++ y) = '\n' :: t := by
  intro xs
  cases xs with
  | nil => left; rfl
  | cons x rest =>
    right
    refine ⟨x ++ rest.flatMap fun y => ("\n".data) ++ y, ?_⟩
    rw [List.flatMap_cons]
    rfl

/-- Claim C1: `generate_resume` never returns an empty document; with a
blank name the first output line is the `Professional Resume` fallback
header; and the output is the stripped assembly, replaced by the
deterministic fallback document exactly when the assembled sections strip
to nothing. -/
theorem claim_C1 :
    ∀ (d : ResumeData) (style : List Char),
      0 < (generate_resume d style).length ∧
      (pyStrip d.name = [] →
        (generate_resume d style).takeWhile (fun c => c != '\n') =
          ("Professional Resume".data)) ∧
      generate_resume d style =
        pyStrip
          (if (pyStrip (joinWith ("\n".data) (assemble_sections d))).isEmpty = true
           then create_fallback_resume d
           else joinWith ("\n".data) (assemble_sections d)) := by
  intro d style
  have hPRtitle : pyTitle ("Professional Resume".data) =
      ("Professional Resume".data) := by decide
  have hhd0 : ∃ hd0 rest0, build_header_section d = hd0 :: rest0 ∧
      isSpaceChar hd0 = false := by
    rw [build_header_section]
    by_cases hblank : (pyStrip d.name).isEmpty = true
    · rw [if_pos hblank, hPRtitle, List.singleton_append, joinWith_cons,
        show ("Professional Resume".data) = 'P' :: ("rofessional Resume".data)
          from rfl,
        List.cons_append]
      exact ⟨_, _, rfl, by decide⟩
    · have hcons : ∃ c cs, pyStrip d.name = c :: cs := by
        cases hx : pyStrip d.name with
        | nil => rw [hx] at hblank; exact absurd rfl hblank
        | cons c cs => exact ⟨c, cs, rfl⟩
      obtain ⟨c, cs, hcs⟩ := hcons
      have hspc : isSpaceChar c = false := pyStrip_head_not_space hcs
      rw [if_neg hblank, hcs, List.singleton_append, joinWith_cons, pyTitle_cons,
        List.cons_append]
      refine ⟨_, _, rfl, ?_⟩
      by_cases ha : c.isAlpha = true
      · rw [if_pos ha]
        exact sp_toUpper hspc
      · rw [if_neg ha]
        exact hspc
  obtain ⟨hd0, rest0, hhd, hsp⟩ := hhd0
  have hassemble : ∃ R, assemble_sections d = build_header_section d :: R := by
    rw [assemble_sections, hhd]
    simp only [List.isEmpty_cons, Bool.not_false, if_true]
    rw [List.singleton_append]
    exact ⟨_, rfl⟩
  obtain ⟨R, hR⟩ := hassemble
  have hmem : hd0 ∈ joinWith ("\n".data) (assemble_sections d) := by
    rw [hR, joinWith_cons, hhd]
    exact List.mem_append_left _ (List.mem_cons_self _ _)
  have hpsne : pyStrip (joinWith ("\n".data) (assemble_sections d)) ≠ [] :=
    List.ne_nil_of_mem (mem_pyStrip hmem hsp)
  obtain ⟨a0, as0, hx0⟩ : ∃ a as,
      pyStrip (joinWith ("\n".data) (assemble_sections d)) = a :: as := by
    cases hx : pyStrip (joinWith ("\n".data) (assemble_sections d)) with
    | nil => exact absurd hx hpsne
    | cons a as => exact ⟨a, as, rfl⟩
  have hpsempty : (pyStrip (joinWith ("\n".data) (assemble_sections d))).isEmpty
      = false := by rw [hx0]; rfl
  have hgen : generate_resume d style =
      pyStrip (joinWith ("\n".data) (assemble_sections d)) := by
    rw [generate_resume, if_neg (by simp [hpsempty])]
  refine ⟨?_, ?_, rfl⟩
  · rw [hgen, hx0]
    simp
  · intro hblankname
    have hblank : (pyStrip d.name).isEmpty = true := by rw [hblankname]; rfl
    have hbh : ∃ t, (t = [] ∨ ∃ u, t = '\n' :: u) ∧
        build_header_section d = ("Professional Resume".data) ++ t := by
      rw [build_header_section, if_pos hblank, hPRtitle, List.singleton_append,
        joinWith_cons]
      exact ⟨_, flatMap_sep_shape _, rfl⟩
    obtain ⟨t1, ht1, hbh⟩ := hbh
    have hcompPR : ∃ T, (T = [] ∨ ∃ u, T = '\n' :: u) ∧
        joinWith ("\n".data) (assemble_sections d) =
          ("Professional Resume".data) ++ T := by
      refine ⟨t1 ++ (R.flatMap fun y => ("\n".data) ++ y), ?_, ?_⟩
      · rcases ht1 with rfl | ⟨u, rfl⟩
        · simpa using flatMap_sep_shape R
        · right
          exact ⟨u ++ (R.flatMap fun y => ("\n".data) ++ y), by rw [List.cons_append]⟩
      · rw [hR, joinWith_cons, hbh, List.append_assoc]
    obtain ⟨T, hT, hcompPR⟩ := hcompPR
    rw [hgen, hcompPR]
    have hdw : (("Professional Resume".data) ++ T).dropWhile isSpaceChar =
        ("Professional Resume".data) ++ T := by
      apply dropWhile_eq_self_of_head
      intro c hc
      rw [show ("Professional Resume".data) = 'P' :: ("rofessional Resume".data)
          from rfl,
        List.cons_append] at hc
      have hc' : 'P' = c := by simpa using hc
      rw [← hc']
      decide
    rw [pyStrip, hdw, dropTrail_append]
    by_cases hdt : (dropTrail T).isEmpty = true
    · rw [if_pos hdt,
        show dropTrail ("Professional Resume".data) = ("Professional Resume".data)
          from by decide]
      decide
    · rw [if_neg hdt]
      rcases hT with rfl | ⟨u, rfl⟩
      · exact absurd rfl hdt
      · cases hdt2 : dropTrail ('\n' :: u) with
        | nil => rw [hdt2] at hdt; exact absurd rfl hdt
        | cons a as =>
          have ha : ('\n' :: u).head? = some a := dropTrail_head hdt2
          have ha2 : a = '\n' := by simpa using ha.symm
          rw [ha2, takeWhile_app ('\n' :: as) (by decide),
            takeWhile_eq_nil_of_head, List.append_nil]
          intro c hc
          have hc' : '\n' = c := by simpa using hc
          rw [← hc']
          decide

/-- Witness for C1 at a record with a blank name. -/
theorem claim_C1_witness :
    pyStrip (([] : List Char)) = [] ∧
      (generate_resume
          ⟨[], [], [], [], [], [], [], [], [], [], [], [], [], [], []⟩
          ("modern".data)).takeWhile (fun c => c != '\n') =
        ("Professional Resume".data) :=
  ⟨rfl,
   (claim_C1 ⟨[], [], [], [], [], [], [], [], [], [], [], [], [], [], []⟩
     ("modern".data)).2.1 rfl⟩

/-! ## Theorems: skill categorization (claim C6) -/

/-- The categorization fold: after processing `skills`, each category
field holds its initial contents followed by exactly the skills whose
first-match category is that field, in input order. -/
theorem categorize_foldl :
    ∀ (skills : List (List Char)) (c : SkillCats),
      skills.foldl categorize_step c =
        ⟨c.programming ++ skills.filter
            (fun sk => spec_category_of sk == ("Programming Languages".data)),
          c.frameworks ++ skills.filter
            (fun sk => spec_category_of sk == ("Frameworks & Libraries".data)),
          c.databases ++ skills.filter
            (fun sk => spec_category_of sk == ("Databases".data)),
          c.cloud ++ skills.filter
            (fun sk => spec_category_of sk == ("Cloud & DevOps".data)),
          c.tools ++ skills.filter
            (fun sk => spec_category_of sk == ("Tools & Platforms".data))⟩ := by
  intro skills
  induction skills with
  | nil =>
    intro c
    cases c with
    | mk p f db cl t => simp
  | cons sk tl ih =>
    intro c
    rw [List.foldl_cons, ih]
    by_cases h1 : programming_langs.any (fun v => containsSub v (lowerList sk)) = true
    · have hcat : spec_category_of sk = ("Programming Languages".data) := by
        simp [spec_category_of, h1]
      have hstep : categorize_step c sk =
          { c with programming := c.programming ++ [sk] } := by
        simp [categorize_step, h1]
      have ne2 : (("Programming Languages".data) ==
          ("Frameworks & Libraries".data)) = false := by decide
      have ne3 : (("Programming Languages".data) ==
          ("Databases".data)) = false := by decide
      have ne4 : (("Programming Languages".data) ==
          ("Cloud & DevOps".data)) = false := by decide
      have ne5 : (("Programming Languages".data) ==
          ("Tools & Platforms".data)) = false := by decide
      rw [hstep]
      simp [SkillCats.mk.injEq, List.filter_cons, hcat, ne2, ne3, ne4, ne5,
        List.append_assoc]
    · by_cases h2 : frameworks_vocab.any (fun v => containsSub v (lowerList sk)) = true
      · have hcat : spec_category_of sk = ("Frameworks & Libraries".data) := by
          simp [spec_category_of, h1, h2]
        have hstep : categorize_step c sk =
            { c with frameworks := c.frameworks ++ [sk] } := by
          simp [categorize_step, h1, h2]
        have ne1 : (("Frameworks & Libraries".data) ==
            ("Programming Languages".data)) = false := by decide
        have ne3 : (("Frameworks & Libraries".data) ==
            ("Databases".data)) = false := by decide
        have ne4 : (("Frameworks & Libraries".data) ==
            ("Cloud & DevOps".data)) = false := by decide
        have ne5 : (("Frameworks & Libraries".data) ==
            ("Tools & Platforms".data)) = false := by decide
        rw [hstep]
        simp [SkillCats.mk.injEq, List.filter_cons, hcat, ne1, ne3, ne4, ne5,
          List.append_assoc]
      · by_cases h3 : databases_vocab.any (fun v => containsSub v (lowerList sk)) = true
        · have hcat : spec_category_of sk = ("Databases".data) := by
            simp [spec_category_of, h1, h2, h3]
          have hstep : categorize_step c sk =
              { c with databases := c.databases ++ [sk] } := by
            simp [categorize_step, h1, h2, h3]
          have ne1 : (("Databases".data) ==
              ("Programming Languages".data)) = false := by decide
          have ne2 : (("Databases".data) ==
              ("Frameworks & Libraries".data)) = false := by decide
          have ne4 : (("Databases".data) ==
              ("Cloud & DevOps".data)) = false := by decide
          have ne5 : (("Databases".data) ==
              ("Tools & Platforms".data)) = false := by decide
          rw [hstep]
          simp [SkillCats.mk.injEq, List.filter_cons, hcat, ne1, ne2, ne4, ne5,
            List.append_assoc]
        · by_cases h4 : cloud_devops_vocab.any
              (fun v => containsSub v (lowerList sk)) = true
          · have hcat : spec_category_of sk = ("Cloud & DevOps".data) := by
              simp [spec_category_of, h1, h2, h3, h4]
            have hstep : categorize_step c sk =
                { c with cloud := c.cloud ++ [sk] } := by
              simp [categorize_step, h1, h2, h3, h4]
            have ne1 : (("Cloud & DevOps".data) ==
                ("Programming Languages".data)) = false := by decide
            have ne2 : (("Cloud & DevOps".data) ==
                ("Frameworks & Libraries".data)) = false := by decide
            have ne3 : (("Cloud & DevOps".data) ==
                ("Databases".data)) = false := by decide
            have ne5 : (("Cloud & DevOps".data) ==
                ("Tools & Platforms".data)) = false := by decide
            rw [hstep]
            simp [SkillCats.mk.injEq, List.filter_cons, hcat, ne1, ne2, ne3, ne5,
              List.append_assoc]
          · have hcat : spec_category_of sk = ("Tools & Platforms".data) := by
              simp [spec_category_of, h1, h2, h3, h4]
            have hstep : categorize_step c sk =
                { c with tools := c.tools ++ [sk] } := by
              by_cases h5 : tools_vocab.any (fun v => containsSub v (lowerList sk)) = true <;>
                simp [categorize_step, h1, h2, h3, h4, h5]
            have ne1 : (("Tools & Platforms".data) ==
                ("Programming Languages".data)) = false := by decide
            have ne2 : (("Tools & Platforms".data) ==
                ("Frameworks & Libraries".data)) = false := by decide
            have ne3 : (("Tools & Platforms".data) ==
                ("Databases".data)) = false := by decide
            have ne4 : (("Tools & Platforms".data) ==
                ("Cloud & DevOps".data)) = false := by decide
            rw [hstep]
            simp [SkillCats.mk.injEq, List.filter_cons, hcat, ne1, ne2, ne3, ne4,
              List.append_assoc]

/-- Claim C6: `enhance_skills` equals the spec-side description — split on
the four delimiters, keep cleaned tokens of length greater than one,
assign each to exactly one of the five fixed categories by first-match
substring membership (unmatched tokens default to Tools & Platforms),
omit empty categories, and print one `Category: skill, skill` line per
non-empty category in the fixed order. -/
theorem claim_C6 : ∀ raw : List Char, enhance_skills raw = spec_enhance_skills raw := by
  intro raw
  by_cases he : (pyStrip raw).isEmpty = true
  · rw [enhance_skills, spec_enhance_skills, if_pos he, if_pos he]
  · rw [enhance_skills, spec_enhance_skills, if_neg he, if_neg he,
      categorize_skills, categorize_foldl (parse_skills raw) ⟨[], [], [], [], []⟩]
    simp only [catsToList, List.nil_append, List.filterMap_cons, List.filterMap_nil]
    generalize ((parse_skills raw).filter fun sk =>
      spec_category_of sk == ("Programming Languages".data)) = f1
    generalize ((parse_skills raw).filter fun sk =>
      spec_category_of sk == ("Frameworks & Libraries".data)) = f2
    generalize ((parse_skills raw).filter fun sk =>
      spec_category_of sk == ("Databases".data)) = f3
    generalize ((parse_skills raw).filter fun sk =>
      spec_category_of sk == ("Cloud & DevOps".data)) = f4
    generalize ((parse_skills raw).filter fun sk =>
      spec_category_of sk == ("Tools & Platforms".data)) = f5
    by_cases e1 : f1.isEmpty = true <;>
    by_cases e2 : f2.isEmpty = true <;>
    by_cases e3 : f3.isEmpty = true <;>
    by_cases e4 : f4.isEmpty = true <;>
    by_cases e5 : f5.isEmpty = true <;>
    simp [List.filter_cons, List.filter_nil, e1, e2, e3, e4, e5]

/-- Witness for C5 at a concrete numeric sentence. -/
theorem claim_C5_witness :
    hasNumericPattern ("Increased revenue by 20%".data) = true ∧
      (add_quantification ("Increased revenue by 20%".data) =
          ("Increased revenue by 20%".data) ∧
        transform_to_bullet ("Increased revenue by 20%".data) =
          finalize_bullet (convert_to_active_voice (ensure_strong_start
            (applyVerbTransformations (stripBulletMarker
              (pyStrip ("Increased revenue by 20%".data))))))) :=
  ⟨by decide, claim_C5 (("Increased revenue by 20%".data)) (by decide)⟩

/-! ## Theorems: well-formedness preservation of the substitution scanner
and the table-wide no-occurrence property (claim C2) -/

theorem patOk_shape {P : List PatElem} (h : patOk P = true) :
    (∃ w, P = [PatElem.pword w]) ∨
      (∃ w P', P = PatElem.pword w :: PatElem.psep :: P' ∧ patOk P' = true) := by
  cases P with
  | nil => simp [patOk] at h
  | cons p P1 =>
    cases p with
    | psep => simp [patOk] at h
    | pword w =>
      cases P1 with
      | nil => exact Or.inl ⟨w, rfl⟩
      | cons p2 P2 =>
        cases p2 with
        | pword w2 => simp [patOk] at h
        | psep => exact Or.inr ⟨w, P2, rfl, h⟩

theorem altOk_tail {x : Tok} {l : List Tok} (h : altOk (x :: l) = true) :
    altOk l = true := by
  cases l with
  | nil => rfl
  | cons y ys =>
    rw [altOk, Bool.and_eq_true] at h
    exact h.2

theorem altOk_of_wfToks {l : List Tok} (h : wfToks l = true) : altOk l = true := by
  rw [wfToks, Bool.and_eq_true] at h
  exact h.2

theorem wfToks_drop : ∀ (n : Nat) (l : List Tok), wfToks l = true →
    wfToks (l.drop n) = true := by
  intro n
  induction n with
  | zero => intro l h; simpa using h
  | succ n ih =>
    intro l h
    cases l with
    | nil => simpa using h
    | cons t ts => rw [List.drop_succ_cons]; exact ih ts (wfToks_tail h)

theorem altOk_append :
    ∀ (a b : List Tok), altOk a = true → altOk b = true →
      (∀ x y, a.getLast? = some x → b.head? = some y → x.isWord ≠ y.isWord) →
      altOk (a ++ b) = true := by
  intro a
  induction a with
  | nil => intro b _ hb _; simpa using hb
  | cons x xs ih =>
    intro b ha hb hj
    cases xs with
    | nil =>
      cases b with
      | nil => simpa using ha
      | cons y bs =>
        rw [List.cons_append, List.nil_append, altOk, Bool.and_eq_true]
        refine ⟨?_, hb⟩
        simpa using hj x y rfl rfl
    | cons x2 xs2 =>
      rw [altOk, Bool.and_eq_true] at ha
      have step := ih b ha.2 hb
        (fun u v hu hv => hj u v (by rw [List.getLast?_cons_cons]; exact hu) hv)
      rw [List.cons_append, List.cons_append, altOk, Bool.and_eq_true]
      refine ⟨ha.1, ?_⟩
      simpa [List.cons_append] using step

theorem wfToks_append {a b : List Tok} (ha : wfToks a = true) (hb : wfToks b = true)
    (hj : ∀ x y, a.getLast? = some x → b.head? = some y → x.isWord ≠ y.isWord) :
    wfToks (a ++ b) = true := by
  rw [wfToks, Bool.and_eq_true] at ha hb
  rw [wfToks, Bool.and_eq_true, List.all_append, Bool.and_eq_true]
  exact ⟨⟨ha.1, hb.1⟩, altOk_append a b ha.2 hb.2 hj⟩

/-- A successful match of a `word (space word)*` pattern on an
alternating token list leaves a remainder that is empty or starts with a
separator run. -/
theorem tryMatch_rest_headSep :
    ∀ (n : Nat) (P : List PatElem), P.length ≤ n → patOk P = true →
      ∀ (ts rest : List Tok), altOk ts = true → tryMatch P ts = some rest →
        rest = [] ∨ ∃ cs rs, rest = Tok.sep cs :: rs := by
  intro n
  induction n with
  | zero =>
    intro P hlen hpat ts rest _ _
    have hP : P = [] := List.length_eq_zero.mp (Nat.le_zero.mp hlen)
    subst hP
    simp [patOk] at hpat
  | succ n ih =>
    intro P hlen hpat ts rest halt hm
    rcases patOk_shape hpat with ⟨w, hw⟩ | ⟨w, P', hw, hpat'⟩
    · subst hw
      cases ts with
      | nil => rw [tryMatch] at hm; cases hm
      | cons t ts' =>
        by_cases hmt : matchTok (PatElem.pword w) t = true
        · rw [tryMatch_cons_pos hmt, tryMatch] at hm
          have hrest : rest = ts' := (Option.some.inj hm).symm
          subst hrest
          cases rest with
          | nil => exact Or.inl rfl
          | cons u us =>
            right
            rw [altOk, Bool.and_eq_true] at halt
            have htu := halt.1
            have htw : t.isWord = true := by
              cases t with
              | word _ => rfl
              | sep _ => rw [matchTok] at hmt; cases hmt
            rw [htw] at htu
            have hu : u.isWord = false := by
              cases hb : u.isWord
              · rfl
              · rw [hb] at htu; simp at htu
            cases u with
            | word _ => rw [Tok.isWord] at hu; cases hu
            | sep cs => exact ⟨cs, us, rfl⟩
        · rw [tryMatch_cons_neg hmt] at hm; cases hm
    · subst hw
      cases ts with
      | nil => rw [tryMatch] at hm; cases hm
      | cons t ts1 =>
        by_cases hmt : matchTok (PatElem.pword w) t = true
        · rw [tryMatch_cons_pos hmt] at hm
          cases ts1 with
          | nil => rw [tryMatch] at hm; cases hm
          | cons t2 ts2 =>
            by_cases hmt2 : matchTok PatElem.psep t2 = true
            · rw [tryMatch_cons_pos hmt2] at hm
              have halt2 : altOk ts2 = true := altOk_tail (altOk_tail halt)
              have hplen : P'.length ≤ n := by
                simp only [List.length_cons] at hlen; omega
              exact ih P' hplen hpat' ts2 rest halt2 hm
            · rw [tryMatch_cons_neg hmt2] at hm; cases hm
        · rw [tryMatch_cons_neg hmt] at hm; cases hm

/-- The substitution scan preserves token-list well-formedness and the
class of the first token, for a `word (space word)*` pattern and a
replacement that starts and ends with a word run. -/
theorem wf_goTok {w0 : List Char} {Q : List PatElem} {R : List Tok}
    (hpat : patOk (PatElem.pword w0 :: Q) = true)
    (hwfR : wfToks R = true) (hhR : headIsWord R = true)
    (hlR : lastIsWord R = true) :
    ∀ (n : Nat) (ts : List Tok), ts.length ≤ n → wfToks ts = true →
      wfToks (goTok (PatElem.pword w0) Q R ts) = true ∧
        headW (goTok (PatElem.pword w0) Q R ts) = headW ts := by
  intro n
  induction n with
  | zero =>
    intro ts hlen _
    have hts : ts = [] := List.length_eq_zero.mp (Nat.le_zero.mp hlen)
    subst hts
    rw [goTok_nil]
    exact ⟨rfl, rfl⟩
  | succ n ih =>
    intro ts hlen hts
    cases ts with
    | nil => rw [goTok_nil]; exact ⟨rfl, rfl⟩
    | cons t ts =>
      cases hm : tryMatch (PatElem.pword w0 :: Q) (t :: ts) with
      | none =>
        rw [goTok_cons_of_none R hm]
        have hlen2 : ts.length ≤ n := by
          simp only [List.length_cons] at hlen; omega
        obtain ⟨hwf2, hhw2⟩ := ih ts hlen2 (wfToks_tail hts)
        obtain ⟨hne1, hcls1⟩ := wfToks_head_good hts
        refine ⟨?_, rfl⟩
        apply wfToks_cons hne1 hcls1 hwf2
        intro u us hu
        rw [hu] at hhw2
        cases ts with
        | nil => simp [headW] at hhw2
        | cons t2 ts2 =>
          have huw : u.isWord = t2.isWord := by
            simp only [headW] at hhw2
            simpa using hhw2
          rw [huw]
          exact wfToks_junction hts
      | some rest =>
        rw [goTok_cons_of_match R hm]
        have hrest : rest = (t :: ts).drop (Q.length + 1) := by
          simpa using tryMatch_some_drop (PatElem.pword w0 :: Q) (t :: ts) rest hm
        have hlrest : rest.length ≤ n := by
          rw [hrest]
          simp only [List.length_drop, List.length_cons]
          simp only [List.length_cons] at hlen
          omega
        have hwfrest : wfToks rest = true := by
          rw [hrest]
          exact wfToks_drop _ _ hts
        obtain ⟨hwfrec, hhwrec⟩ := ih rest hlrest hwfrest
        have hshape := tryMatch_rest_headSep (PatElem.pword w0 :: Q).length
          (PatElem.pword w0 :: Q) (Nat.le_refl _) hpat (t :: ts) rest
          (altOk_of_wfToks hts) hm
        constructor
        · apply wfToks_append hwfR hwfrec
          intro x y hx hy
          have hyW : headW (goTok (PatElem.pword w0) Q R rest) = some y.isWord := by
            cases hgr : goTok (PatElem.pword w0) Q R rest with
            | nil => rw [hgr] at hy; simp at hy
            | cons g gs =>
              rw [hgr] at hy
              have hgy : g = y := by simpa using hy
              rw [headW, hgy]
          rw [hhwrec] at hyW
          have hyF : y.isWord = false := by
            rcases hshape with rfl | ⟨cs, rs, rfl⟩
            · simp [headW] at hyW
            · simp only [headW] at hyW
              have hfy := Option.some.inj hyW
              exact hfy.symm
          have hxT : x.isWord = true := by
            rw [lastIsWord] at hlR
            cases hrev : R.reverse with
            | nil =>
              rw [hrev] at hlR
              simp [headIsWord] at hlR
            | cons r0 rr =>
              rw [hrev] at hlR
              have hx2 : x = r0 := by
                have hh := hx
                rw [List.getLast?_eq_head?_reverse, hrev] at hh
                have hrx : r0 = x := by simpa using hh
                exact hrx.symm
              cases r0 with
              | word wcs0 => rw [hx2]; rfl
              | sep scs0 => simp [headIsWord] at hlR
          rw [hxT, hyF]
          simp
        · obtain ⟨r0, R', hR0⟩ : ∃ r0 R', R = Tok.word r0 :: R' := by
            cases R with
            | nil => simp [headIsWord] at hhR
            | cons r R' =>
              cases r with
              | word r0 => exact ⟨r0, R', rfl⟩
              | sep _ => simp [headIsWord] at hhR
          obtain ⟨wcs, hwcs⟩ : ∃ wcs, t = Tok.word wcs := by
            rw [tryMatch] at hm
            by_cases hmt : matchTok (PatElem.pword w0) t = true
            · cases t with
              | word wcs => exact ⟨wcs, rfl⟩
              | sep scs => rw [matchTok] at hmt; cases hmt
            · rw [if_neg hmt] at hm; cases hm
          rw [hR0, List.cons_append, hwcs]
          rfl

/-- One table-entry substitution commutes with tokenization: the
string-level `re.sub` equals the token-level scan. -/
theorem tokenize_subWordBound {weak strong s : List Char}
    (hok : entryOk (weak, strong) = true) :
    tokenize (subWordBound weak strong s) = tokSub weak strong (tokenize s) := by
  rw [subWordBound, tokSub]
  cases hpe : patElems weak with
  | nil => rfl
  | cons p ps =>
    simp only [entryOk] at hok
    rw [hpe] at hok
    rw [Bool.and_eq_true, Bool.and_eq_true] at hok
    obtain ⟨⟨hpat, hh⟩, hl⟩ := hok
    obtain ⟨f, rfl⟩ : ∃ f, p = PatElem.pword f := by
      rcases patOk_shape hpat with ⟨w, hw⟩ | ⟨w, P', hw, _⟩ <;>
        (injection hw with ha hb; exact ⟨w, ha⟩)
    exact tokenize_detok _
      ((wf_goTok hpat (wfToks_tokenize strong) hh hl (tokenize s).length
        (tokenize s) (Nat.le_refl _) (wfToks_tokenize s)).1)

/-- The whole substitution loop commutes with tokenization, provided
every entry is well formed. -/
theorem applyVerb_tokenize :
    ∀ (tbl : List (List Char × List Char)) (s : List Char),
      (∀ wr ∈ tbl, entryOk wr = true) →
      tokenize (tbl.foldl (fun acc wr => subWordBound wr.1 wr.2 acc) s) =
        applyTok tbl (tokenize s) := by
  intro tbl
  induction tbl with
  | nil => intro s _; rfl
  | cons wr tl ih =>
    intro s hall
    rw [List.foldl_cons, applyTok, List.foldl_cons, ← applyTok]
    rw [ih _ (fun x hx => hall x (List.mem_cons_of_mem _ hx))]
    rw [tokenize_subWordBound (hall wr (List.mem_cons_self _ _))]

theorem chunkOk_spec {f : List Char} {P' : List PatElem} {R : List Tok}
    (h : chunkOk f P' R = true) :
    ∃ w0, R.head? = some (Tok.word w0) ∧
      lowerList w0 ∉ patWords (PatElem.pword f :: P') ∧
      (∀ cs, Tok.word cs ∈ R → lowerList cs ≠ f) := by
  rw [chunkOk] at h
  cases hh : R.head? with
  | none => rw [hh] at h; cases h
  | some r =>
    cases r with
    | sep cs => rw [hh] at h; cases h
    | word cs =>
      rw [hh] at h
      rw [Bool.and_eq_true] at h
      refine ⟨cs, rfl, ?_, ?_⟩
      · intro hmem
        have hc : (patWords (PatElem.pword f :: P')).contains (lowerList cs)
            = true := by simpa using hmem
        rw [hc] at h
        exact Bool.noConfusion h.1
      · intro cs' hmem heq
        have hmem2 : f ∈ tokWordsCI R := by
          rw [tokWordsCI, List.mem_filterMap]
          exact ⟨Tok.word cs', hmem, by simp [heq]⟩
        have hc : (tokWordsCI R).contains f = true := by simpa using hmem2
        rw [hc] at h
        exact Bool.noConfusion h.2

/-- After an entry has removed every occurrence of its pattern, the
remaining table entries cannot recreate it, given the chunk conditions
against each later replacement. -/
theorem noOccurs_applyTok {f : List Char} {P' : List PatElem} :
    ∀ (tbl : List (List Char × List Char)) (ts : List Tok),
      occursB (PatElem.pword f :: P') ts = false →
      (∀ wr ∈ tbl, chunkOk f P' (tokenize wr.2) = true) →
      occursB (PatElem.pword f :: P')
        (tbl.foldl (fun acc wr => tokSub wr.1 wr.2 acc) ts) = false := by
  intro tbl
  induction tbl with
  | nil => intro ts h _; exact h
  | cons wr tl ih =>
    intro ts h hall
    rw [List.foldl_cons]
    apply ih
    · rw [tokSub]
      cases hpe : patElems wr.1 with
      | nil => exact h
      | cons p ps =>
        obtain ⟨w0, hR, hCm, hCs⟩ := chunkOk_spec (hall wr (List.mem_cons_self _ _))
        exact noOccurs_goTok hR hCm hCs ts (Or.inl h)
    · exact fun x hx => hall x (List.mem_cons_of_mem _ hx)

/-- Main table lemma: for an entry `(w, r)` of the transformation table
whose self and suffix chunk conditions hold, the finished substitution
loop output contains no boundary-delimited occurrence of `w`. -/
theorem noOccurs_entry {l₁ l₂ : List (List Char × List Char)} {w r : List Char}
    (hsplit : verb_transformations = l₁ ++ (w, r) :: l₂)
    (hok : selfSuffixOk w r l₂ = true)
    (hall : ∀ wr ∈ verb_transformations, entryOk wr = true) :
    ∀ s : List Char, occursWordBound w (applyVerbTransformations s) = false := by
  intro s
  rw [occursWordBound]
  cases hpe : patElems w with
  | nil => rfl
  | cons p ps =>
    cases p with
    | psep =>
      rw [selfSuffixOk, hpe] at hok
      exact absurd hok (by simp)
    | pword f =>
      rw [selfSuffixOk, hpe] at hok
      rw [Bool.and_eq_true] at hok
      obtain ⟨hself, hsuffix⟩ := hok
      have htrans : tokenize (applyVerbTransformations s) =
          applyTok verb_transformations (tokenize s) := by
        rw [applyVerbTransformations]
        exact applyVerb_tokenize _ _ hall
      rw [htrans, hsplit, applyTok, List.foldl_append, List.foldl_cons]
      obtain ⟨w0, hR, hCm, hCs⟩ := chunkOk_spec hself
      have hmid : occursB (PatElem.pword f :: ps)
          (tokSub w r (List.foldl (fun acc wr => tokSub wr.1 wr.2 acc)
            (tokenize s) l₁)) = false := by
        rw [tokSub, hpe]
        exact noOccurs_goTok hR hCm hCs _ (Or.inr rfl)
      apply noOccurs_applyTok l₂ _ hmid
      intro wr hwr
      exact List.all_eq_true.mp hsuffix wr hwr

/-- Every entry of a table suffix whose `tableOk` conditions hold ends the
full substitution loop with no occurrence of its weak phrase. -/
theorem noOccurs_allEntries :
    ∀ (tl l₁ : List (List Char × List Char)),
      verb_transformations = l₁ ++ tl → tableOk tl = true →
      (∀ wr ∈ verb_transformations, entryOk wr = true) →
      ∀ wr ∈ tl, ∀ s : List Char,
        occursWordBound wr.1 (applyVerbTransformations s) = false := by
  intro tl
  induction tl with
  | nil =>
    intro l₁ _ _ _ wr hmem
    exact absurd hmem (List.not_mem_nil wr)
  | cons p tl ih =>
    intro l₁ heq htab hall wr hmem
    obtain ⟨w, r⟩ := p
    simp only [tableOk, Bool.and_eq_true] at htab
    rcases List.mem_cons.mp hmem with rfl | hmem2
    · intro s
      exact noOccurs_entry heq htab.1 hall s
    · intro s
      exact ih (l₁ ++ [(w, r)])
        (by rw [heq, List.append_assoc, List.singleton_append]) htab.2
        hall wr hmem2 s

/-- Claim C2 counterexample: the table maps `assisted` to `Supported`,
yet the bullet built from `assisted` is `Facilitated.`, which contains
neither the weak phrase nor its mapped strong verb (later entries rewrite
the replacement); and the full pipeline can even recreate a weak phrase:
the passive-to-active rewrite (whose auxiliary has no word boundary)
turns `used uwas sed` into a bullet that again contains the weak word
`used`. -/
theorem claim_C2_counterexample :
    (("assisted".data), ("Supported".data)) ∈ verb_transformations ∧
      transform_to_bullet ("assisted".data) = ("Facilitated.".data) ∧
      containsSubCI ("supported".data) ("Facilitated.".data) = false ∧
      occursWordBound ("assisted".data) ("Facilitated.".data) = false ∧
      (("used".data), ("Utilized".data)) ∈ verb_transformations ∧
      transform_to_bullet ("used uwas sed".data) =
        ("Implemented Utilized used.".data) ∧
      occursWordBound ("used".data) ("used uwas sed".data) = true ∧
      occursWordBound ("used".data)
        (transform_to_bullet ("used uwas sed".data)) = true := by
  decide

/-- Claim C2 (amended): the weak-verb substitution pass itself removes
every boundary-delimited, case-insensitive occurrence of every table
phrase, for every input; but the replacement that remains is the cascade
of later entries applied to the mapped value (e.g. `assisted` ends as
`Facilitated`, `participated` as `Enhanced to`, `worked on` as
`Developed on` because the `worked` entry fires first), and the later
passive-to-active rewrite can reintroduce a weak phrase, so the guarantee
holds at the substitution pass, not at the end of the bullet pipeline. -/
theorem claim_C2_amended :
    (∀ (s : List Char) (wr : List Char × List Char),
        wr ∈ verb_transformations →
        occursWordBound wr.1 (applyVerbTransformations s) = false) ∧
      applyVerbTransformations ("worked".data) = ("Developed".data) ∧
      applyVerbTransformations ("helped".data) = ("Implemented".data) ∧
      applyVerbTransformations ("did".data) = ("Executed".data) ∧
      applyVerbTransformations ("made".data) = ("Built".data) ∧
      applyVerbTransformations ("was responsible for".data) = ("Managed".data) ∧
      applyVerbTransformations ("handled".data) = ("Managed".data) ∧
      applyVerbTransformations ("dealt with".data) = ("Resolved".data) ∧
      applyVerbTransformations ("took care of".data) = ("Maintained".data) ∧
      applyVerbTransformations ("was involved in".data) = ("Enhanced to in".data) ∧
      applyVerbTransformations ("used".data) = ("Utilized".data) ∧
      applyVerbTransformations ("got".data) = ("Achieved".data) ∧
      applyVerbTransformations ("tried".data) = ("Implemented".data) ∧
      applyVerbTransformations ("looked at".data) = ("Analyzed".data) ∧
      applyVerbTransformations ("worked on".data) = ("Developed on".data) ∧
      applyVerbTransformations ("worked with".data) = ("Developed with".data) ∧
      applyVerbTransformations ("assisted".data) = ("Facilitated".data) ∧
      applyVerbTransformations ("participated".data) = ("Enhanced to".data) ∧
      applyVerbTransformations ("contributed".data) = ("Enhanced".data) ∧
      applyVerbTransformations ("supported".data) = ("Facilitated".data) := by
  constructor
  · intro s wr hmem
    exact noOccurs_allEntries verb_transformations [] rfl (by decide)
      (by decide) wr hmem s
  · decide

/-- Witness for C2 (amended) at a concrete sentence and table entry. -/
theorem claim_C2_witness :
    (("worked".data), ("Developed".data)) ∈ verb_transformations ∧
      occursWordBound ("worked".data)
        (applyVerbTransformations ("worked on many tasks".data)) = false :=
  ⟨by decide,
   claim_C2_amended.1 ("worked on many tasks".data)
     ((("worked".data), ("Developed".data))) (by decide)⟩

end ResumeAI
